import Mathlib

/-!
Verification of the gkeep.nvim synchronization core against a shallow
embedding of its Python source (rplugin/python3/gkeep).

Modeling conventions:
* Python strings are modeled as `List Char` (`Str`), one list per line;
  a file is a list of lines (trailing newlines are stripped by
  `read_lines` in the source, so line lists are the faithful unit).
* The gkeepapi note/list-item object graph (an external library) is
  modeled as a value-level arena following the data model of the spec
  and the library behavior the plugin relies on: every mutating setter
  marks the note dirty, `List.items` is the stable descending sort by
  (sort, id) with children keyed under their parent, `add` appends a
  fresh item, `delete` marks an item deleted.
* MD5 content hashes are modeled by the content itself, so hash equality
  is content equality (collision-freedom assumption).
* Python `assert` failures and uncaught exceptions are modeled by
  `Except Unit`.
-/

namespace GKeep

abbrev Str := List Char

/-- Convert a Lean string literal to the `List Char` model type. -/
def chars (s : String) : Str := s.data

/-- Python regex `\s` on ASCII: space, tab, newline, CR, VT, FF. -/
def isPySpace (c : Char) : Bool :=
  c == ' ' || c == '\t' || c == '\n' || c == '\r' || c == '\x0b' || c == '\x0c'

/-- Python `str.lstrip()`. -/
def pyLStrip (s : Str) : Str := s.dropWhile isPySpace

/-- Python `str.rstrip()`. -/
def pyRStrip (s : Str) : Str := (s.reverse.dropWhile isPySpace).reverse

/-- Python `str.strip()`. -/
def pyStrip (s : Str) : Str := pyRStrip (pyLStrip s)

/-- Python `str.lower()` restricted to ASCII. -/
def pyLower (s : Str) : Str := s.map Char.toLower

/-- `util.normalize_title`: replace every whitespace char by a space. -/
def replaceWs (s : Str) : Str := s.map (fun c => if isPySpace c then ' ' else c)

/-- The monkey-patched title getter in api.py strips the raw title and
replaces newlines by spaces; we store titles in already-normalized form
(the getter is idempotent on its own output, so this is observationally
equivalent). -/
def normTitle (s : Str) : Str := (pyStrip s).map (fun c => if c == '\n' then ' ' else c)

/-- `util.escape`: replace whitespace by spaces, then drop every char
that is not word / whitespace / dot / hyphen.  (NFKC normalization is
the identity on the ASCII inputs we consider and is omitted.) -/
def escape (s : Str) : Str :=
  (replaceWs s).filter (fun c => c.isAlphanum || c == '_' || isPySpace c || c == '.' || c == '-')

/-- Split a text blob on newline characters, Python `text.split("\n")`. -/
def splitLines : Str → List Str
  | [] => [[]]
  | c :: rest =>
    match splitLines rest with
    | l :: ls => if c == '\n' then [] :: l :: ls else (c :: l) :: ls
    | [] => [[]]

/-- Python `"\n".join(lines)`. -/
def joinLines : List Str → Str
  | [] => []
  | [l] => l
  | l :: ls => l ++ '\n' :: joinLines ls

/-- Python `sep.join(strs)` for a general separator. -/
def joinWith (sep : Str) : List Str → Str
  | [] => []
  | [l] => l
  | l :: ls => l ++ sep ++ joinWith sep ls

theorem splitLines_ne_nil (s : Str) : splitLines s ≠ [] := by
  cases s with
  | nil => simp [splitLines]
  | cons c rest =>
    unfold splitLines
    rcases h : splitLines rest with _ | ⟨l, ls⟩
    · simp
    · by_cases hc : (c == '\n') <;> simp [hc]

theorem joinLines_splitLines (s : Str) : joinLines (splitLines s) = s := by
  induction s with
  | nil => rfl
  | cons c rest ih =>
    unfold splitLines
    rcases h : splitLines rest with _ | ⟨l, ls⟩
    · exact absurd h (splitLines_ne_nil rest)
    · rw [h] at ih
      by_cases hc : c = '\n'
      · subst hc
        simp only [beq_self_eq_true, if_true, joinLines, List.nil_append]
        rw [ih]
      · have hcb : (c == '\n') = false := by simp [hc]
        simp only [hcb, Bool.false_eq_true, if_false]
        cases ls with
        | nil =>
          simp only [joinLines] at ih ⊢
          rw [ih]
        | cons l2 ls2 =>
          simp only [joinLines] at ih ⊢
          rw [List.cons_append, ih]

/-! ## Checklist item arena (gkeepapi `List` / `ListItem` model) -/

/-- A checklist item.  `parentId = some p` models gkeepapi
`super_list_item_id` pointing at the parent item; `indented` is derived.
`deleted` models `ListItem.delete()` marking. -/
structure LItem where
  id : Nat
  text : Str
  checked : Bool
  parentId : Option Nat
  sort : Int
  deleted : Bool
  deriving Repr, DecidableEq

def LItem.indented (it : LItem) : Bool := it.parentId.isSome

/-- The item storage of one checklist note: children of the List node in
insertion order, plus a fresh-id counter for `List.add`. -/
structure LState where
  items : List LItem
  nextId : Nat
  deriving Repr, DecidableEq

def findItem (st : LState) (i : Nat) : Option LItem :=
  st.items.find? (fun x => x.id == i)

/-- gkeepapi `ListItem.subitems` (children of an item, insertion order;
no deleted filter in the library). -/
def childrenOf (st : LState) (pid : Nat) : List LItem :=
  st.items.filter (fun c => c.parentId == some pid)

/-- Strict descending comparison on (sort, id) pairs. -/
def pairGT (a b : Int × Nat) : Bool :=
  b.1 < a.1 || (a.1 == b.1 && b.2 < a.2)

/-- Sort key of an item, after gkeepapi `List.sorted_items`: a
non-indented item is keyed by its own (sort, id); an indented item is
keyed by its parent pair first and its own pair second.  A dangling
parent reference falls back to the item itself (unreachable for
well-formed arenas). -/
def itemKey (st : LState) (x : LItem) : (Int × Nat) × Option (Int × Nat) :=
  match x.parentId with
  | none => ((x.sort, x.id), none)
  | some p =>
    match findItem st p with
    | some par => ((par.sort, par.id), some (x.sort, x.id))
    | none => ((x.sort, x.id), none)

/-- Strict "comes earlier in the view" comparison between keys: larger
primary pair first; on equal primary the parent (no secondary pair)
precedes its children; children descend by their own pair. -/
def keyGT (a b : (Int × Nat) × Option (Int × Nat)) : Bool :=
  pairGT a.1 b.1 ||
    (a.1 == b.1 &&
      match a.2, b.2 with
      | none, none => false
      | none, some _ => true
      | some _, none => false
      | some x, some y => pairGT x y)

/-- Stable insertion into a descending list: `x` goes before the first
element that is not strictly greater than it. -/
def insertByGT (gt : α → α → Bool) (x : α) : List α → List α
  | [] => [x]
  | y :: ys => if gt y x then y :: insertByGT gt x ys else x :: y :: ys

/-- Stable insertion sort; models Python `sorted(key=..., reverse=True)`
(any two stable sorts agree, so insertion sort is a faithful model of
Timsort for the same comparator). -/
def sortByGT (gt : α → α → Bool) : List α → List α
  | [] => []
  | x :: xs => insertByGT gt x (sortByGT gt xs)

/-- gkeepapi `List.items`: non-deleted items in view (sorted) order. -/
def itemsView (st : LState) : List LItem :=
  sortByGT (fun a b => keyGT (itemKey st a) (itemKey st b))
    (st.items.filter (fun x => !x.deleted))

/-- gkeepapi `List.add(text, checked, sort)`: append a fresh item. -/
def addItem (st : LState) (text : Str) (checked : Bool) (sort : Int) : LState × LItem :=
  let it : LItem := ⟨st.nextId, text, checked, none, sort, false⟩
  (⟨st.items ++ [it], st.nextId + 1⟩, it)

/-- In-place update of the item with the given id. -/
def setItem (st : LState) (i : Nat) (f : LItem → LItem) : LState :=
  { st with items := st.items.map (fun x => if x.id == i then f x else x) }

/-! ## Notes (gkeepapi `Note` / `List` nodes as used by the plugin) -/

structure Label where
  id : Str
  name : Str
  deriving Repr, DecidableEq

inductive NBody where
  | note (text : Str)
  | list (st : LState)
  deriving Repr, DecidableEq

/-- A top-level note.  `title = none` models a Python `None` title (an
empty stored title is `some []`); stored titles are kept in the
normalized form the monkey-patched getter produces. -/
structure GNote where
  id : Str
  title : Option Str
  labels : List Label
  trashed : Bool
  archived : Bool
  dirty : Bool
  body : NBody
  deriving Repr, DecidableEq

/-- The monkey-patched title setter: store (normalized) and touch. -/
def setTitle (n : GNote) (t : Option Str) : GNote :=
  { n with title := t.map normTitle, dirty := true }

/-- Python `f"{x}"` of an optional string (None prints as "None"). -/
def reprOpt (t : Option Str) : Str :=
  match t with
  | some s => s
  | none => chars "None"

/-! ## Codec: `parser/keep.py` serialize -/

/-- `util.checkbox` markers.  `partial` is the `[-]` marker. -/
def checkbox (m : Option Bool) : Str :=
  match m with
  | none => chars "[-] "
  | some true => chars "[x] "
  | some false => chars "[ ] "

/-- The checkbox state emitted for an item in `_gen_list_body`: a
non-indented unchecked item with at least one checked child renders as
partial. -/
def markOf (st : LState) (it : LItem) : Option Bool :=
  if it.indented then some it.checked
  else if it.checked then some true
  else if (childrenOf st it.id).any (fun c => c.checked) then none
  else some false

def itemLine (st : LState) (it : LItem) : Str :=
  (if it.indented then chars "    " else []) ++ checkbox (markOf st it) ++ it.text

/-- `_gen_list_body`. -/
def genListBody (st : LState) : List Str :=
  (itemsView st).map (itemLine st)

/-- Label rendering in `_gen_header`: names containing a comma are
double-quoted. -/
def quoteLabel (l : Label) : Str :=
  if l.name.contains ',' then '"' :: l.name ++ ['"'] else l.name

/-- `_gen_header`: title line, id line, optional labels line, blank. -/
def genHeader (n : GNote) : List Str :=
  (chars "# " ++ pyStrip (reprOpt n.title)) ::
  (chars "id: " ++ n.id) ::
  (if n.labels.isEmpty then [[]]
   else [chars "labels: " ++ joinWith (chars ", ") (n.labels.map quoteLabel), []])

/-- `keep.serialize` (equal to `parser.serialize` with neorg support
disabled, which is the configuration modeled throughout). -/
def serializeNote (n : GNote) : List Str :=
  genHeader n ++
    match n.body with
    | .note text => splitLines text
    | .list st => genListBody st

/-! ## Codec: `parser/keep.py` parse -/

/-- `parser/common.py` `Header`. -/
structure MHeader where
  id : Option Str
  title : Option Str
  deriving Repr, DecidableEq

def startsWith (pre s : Str) : Bool := List.isPrefixOf pre s

/-- `_parse_meta`: optional `# title` line then optional `id:` line;
returns the header and the index of the first unconsumed line. -/
def parseMeta (lines : List Str) : MHeader × Nat :=
  let (title, i) :=
    match lines with
    | l :: _ => if startsWith (chars "#") l then (some (pyStrip (l.drop 1)), 1) else (none, 0)
    | [] => (none, 0)
  match lines.drop i with
  | l :: _ =>
    if startsWith (chars "id:") l then (⟨some (pyStrip (l.drop 3)), title⟩, i + 1)
    else (⟨none, title⟩, i)
  | [] => (⟨none, title⟩, i)

theorem length_dropWhile_le (p : α → Bool) (l : List α) :
    (l.dropWhile p).length ≤ l.length := by
  induction l with
  | nil => simp [List.dropWhile]
  | cons a l ih =>
    by_cases h : p a <;> simp [List.dropWhile, h] <;> omega

/-- One scanning step of `LABEL_RE.finditer`: at the current position
try the quoted alternative `"([^"]+)"`, else the unquoted `([^,"]+)`;
on failure advance one character.  Returns the captured token texts. -/
def labelTokens : Str → List Str
  | [] => []
  | '"' :: rest =>
    -- after the opening quote, `dropWhile` stops at the closing quote
    -- (if any); `[^"]+` needs a nonempty run, otherwise the unquoted
    -- alternative also fails on the quote and the scanner advances one
    let run := rest.takeWhile (fun c => c != '"')
    let rest2 := rest.dropWhile (fun c => c != '"')
    if rest2.isEmpty || run.isEmpty then labelTokens rest
    else run :: labelTokens (rest2.drop 1)
  | c :: rest =>
    if c == ',' then labelTokens rest
    else
      (c :: rest.takeWhile (fun x => x != ',' && x != '"')) ::
        labelTokens (rest.dropWhile (fun x => x != ',' && x != '"'))
termination_by s => s.length
decreasing_by
  all_goals simp_wf
  all_goals
    first
    | omega
    | (have h1 := length_dropWhile_le (fun c => c != '"') rest
       have h2 := length_dropWhile_le (fun x => x != ',' && x != '"') rest
       try simp only [List.length_drop]
       omega)

/-- `KeepApi.findLabel` (string query): case-insensitive name lookup. -/
def findLabel (labels : List Label) (q : Str) : Option Label :=
  labels.find? (fun l => pyLower l.name == pyLower q)

/-- `_parse_labels`. -/
def parseLabels (labels : List Label) (s : Str) : List Label :=
  (labelTokens s).filterMap (fun t => findLabel labels (pyStrip t))

/-- `_parse_header`: meta, optional labels line, one optional blank. -/
def parseHeader (labels : List Label) (lines : List Str) :
    MHeader × List Label × Nat :=
  let (h, i) := parseMeta lines
  let (ls, i) :=
    match lines.drop i with
    | l :: _ =>
      if startsWith (chars "labels:") l then (parseLabels labels (l.drop 7), i + 1)
      else ([], i)
    | [] => ([], i)
  match lines.drop i with
  | l :: _ => if pyStrip l == [] then (h, ls, i + 1) else (h, ls, i)
  | [] => (h, ls, i)

/-- `parser/common.py` `merge_labels`: add parsed labels the note lacks
(by id), then drop note labels not in the parsed list.  Label-collection
changes touch the note in our dirty model. -/
def mergeLabels (n : GNote) (ls : List Label) : GNote :=
  let step := fun (m : GNote) (l : Label) =>
    if m.labels.any (fun x => x.id == l.id) then m
    else { m with labels := m.labels ++ [l], dirty := true }
  let m := ls.foldl step n
  let kept := m.labels.filter (fun x => ls.contains x)
  if kept.length == m.labels.length then m
  else { m with labels := kept, dirty := true }

/-- `_sync_header`. -/
def syncHeader (n : GNote) (h : MHeader) (ls : List Label) : GNote :=
  let n := if n.title != h.title then setTitle n h.title else n
  let n :=
    match h.id with
    | some i => if n.id != i then { n with id := i, dirty := true } else n
    | none => n
  mergeLabels n ls

/-- `parse_note_body`. -/
def parseNoteBody (lines : List Str) (n : GNote) (i : Nat) (text0 : Str) : GNote :=
  let text := joinLines (lines.drop i)
  if text != text0 then { n with body := .note text, dirty := true } else n

/-! ## Checklist reconciliation: `_parse_list_body` and `ListItemDict` -/

/-- Result of matching one body line: checkbox syntax via
`LIST_ITEM_RE`, else skip for an all-whitespace line, else raw text with
a leading-space indentation guess. -/
structure LineItem where
  indented : Bool
  checked : Bool
  text : Str
  deriving Repr, DecidableEq

/-- `LIST_ITEM_RE.match`: `^(\s*)\[([ x\-])\]\s*(.*)$`, case-insensitive
on the `x`. -/
def matchListItem (line : Str) : Option LineItem :=
  let ws := line.takeWhile isPySpace
  match line.dropWhile isPySpace with
  | '[' :: m :: ']' :: rest =>
    if m == ' ' || m.toLower == 'x' || m == '-' then
      some ⟨!ws.isEmpty, m.toLower == 'x', rest.dropWhile isPySpace⟩
    else none
  | _ => none

/-- Line classification at the top of the `_parse_list_body` loop;
`none` means the line is skipped (`SPACE_RE`). -/
def classifyLine (line : Str) : Option LineItem :=
  match matchListItem line with
  | some li => some li
  | none =>
    if line.all isPySpace then none
    else
      some ⟨(match line with | ' ' :: _ => true | _ => false), false, pyStrip line⟩

/-- `ListItemDict`: a text-keyed multimap of item ids, keys in first
insertion order, each queue FIFO.  Queues are never empty (`pop`
deletes emptied keys, as the Python dict does). -/
abbrev ItemDict := List (Str × List Nat)

def dictAdd (m : ItemDict) (text : Str) (i : Nat) : ItemDict :=
  match m with
  | [] => [(text, [i])]
  | (t, q) :: rest =>
    if t == text then (t, q ++ [i]) :: rest else (t, q) :: dictAdd rest text i

def buildDict (its : List LItem) : ItemDict :=
  its.foldl (fun m it => dictAdd m it.text it.id) []

/-- `ListItemDict.pop`: first id under the key, dropping the key when
its queue empties.  (Popping an empty queue cannot happen; the branch
returns `none` for totality.) -/
def dictPop (m : ItemDict) (text : Str) : Option Nat × ItemDict :=
  match m with
  | [] => (none, [])
  | (t, q) :: rest =>
    if t == text then
      match q with
      | [] => (none, rest)
      | i :: q2 => (some i, if q2.isEmpty then rest else (t, q2) :: rest)
    else
      let (r, rest2) := dictPop rest text
      (r, (t, q) :: rest2)

/-- All ids remaining in the dict, in iteration order
(`for val in self._map.values(): yield from val`). -/
def dictIds (m : ItemDict) : List Nat :=
  m.foldr (fun (_, q) acc => q ++ acc) []

/-- `keep._dedent`: clear the parent link (and touch). -/
def dedentItem (st : LState) (i : Nat) : LState :=
  setItem st i (fun x => { x with parentId := none })

/-- `keep._indent`: dedent all current children of the item, then attach
it under the parent (gkeepapi `indent` proceeds since the children were
just detached). -/
def indentItem (st : LState) (i : Nat) (pid : Nat) : LState :=
  let st := (childrenOf st i).foldl (fun s c => dedentItem s c.id) st
  setItem st i (fun x => { x with parentId := some pid })

/-- gkeepapi raw `ListItem.indent`: a no-op when the item still has
children. -/
def rawIndent (st : LState) (i : Nat) (pid : Nat) : LState :=
  if (childrenOf st i).isEmpty then
    setItem st i (fun x => { x with parentId := some pid })
  else st

/-- Loop state of `_parse_list_body`. -/
structure WalkSt where
  st : LState
  dict : ItemDict
  parent : Option Nat
  newItems : List Nat
  lastSort : Option Int
  resort : Bool
  dirty : Bool
  deriving Repr, DecidableEq

/-- Pop stage of the `_parse_list_body` loop body: a matching existing
item by text, else `note.add` with the stepped sort. -/
def stagePop (w : WalkSt) (li : LineItem) : LState × LItem × Bool × ItemDict :=
  let pd := dictPop w.dict li.text
  match pd.1 with
  | some iid =>
    match findItem w.st iid with
    | some it => (w.st, it, w.dirty, pd.2)
    | none => (w.st, ⟨iid, li.text, li.checked, none, 0, false⟩, w.dirty, pd.2)
      -- unreachable: dict ids always resolve in the arena
  | none =>
    let sort := match w.lastSort with
      | some ls => ls - 1000000
      | none => 0
    let ai := addItem w.st li.text li.checked sort
    (ai.1, ai.2, true, pd.2)

/-- Mutation stage of the loop body: the text / checked / indentation
reconciliation statements, against the snapshot `it` of the current
item. -/
def stageMutate (st0 : LState) (it : LItem) (li : LineItem) (indented checked : Bool)
    (parentVar : Option Nat) (dirty0 : Bool) : LState × Bool :=
  let p1 : LState × Bool :=
    if it.text != li.text then (setItem st0 it.id (fun x => { x with text := li.text }), true)
    else (st0, dirty0)
  let p2 : LState × Bool :=
    if it.checked != checked then (setItem p1.1 it.id (fun x => { x with checked := checked }), true)
    else p1
  if it.indented != indented then
    if indented then
      match parentVar with
      | some pid => (indentItem p2.1 it.id pid, true)
      | none => p2 -- unreachable: indented implies a parent
    else (dedentItem p2.1 it.id, true)
  else if indented then
    match parentVar with
    | some pid =>
      if (some pid : Option Nat) != it.parentId then
        (rawIndent (dedentItem p2.1 it.id) it.id pid, true)
      else p2
    | none => p2
  else p2

/-- One iteration of the `_parse_list_body` loop for a non-skipped
line, mirroring the source statement for statement. -/
def walkStep (w : WalkSt) (li : LineItem) : WalkSt :=
  -- if indented and parent is None: indented = False
  let indented := li.indented && w.parent.isSome
  let pr := stagePop w li
  let st := pr.1
  let it := pr.2.1
  -- if indented: checked = checked or parent.checked
  let checked :=
    if indented then
      li.checked || (match w.parent with
        | some pid => ((findItem st pid).map (fun p => p.checked)).getD false
        | none => false)
    else li.checked
  let resort := w.resort ||
    (match w.lastSort with
     | some ls => decide (ls ≤ it.sort)
     | none => false)
  let lastSort := some it.sort
  let sd := stageMutate st it li indented checked w.parent pr.2.2.1
  { st := sd.1
    dict := pr.2.2.2
    parent := if indented then w.parent else some it.id
    newItems := w.newItems ++ [it.id]
    lastSort := lastSort
    resort := resort
    dirty := sd.2 }

/-- One numbering step of the resort pass. -/
def resortStep (acc : LState × Int × Bool) (iid : Nat) : LState × Int × Bool :=
  let stp :=
    match findItem acc.1 iid with
    | some it =>
      if it.sort != acc.2.1 then
        (setItem acc.1 iid (fun x => { x with sort := acc.2.1 }), true)
      else (acc.1, acc.2.2)
    | none => (acc.1, acc.2.2) -- unreachable
  (stp.1, acc.2.1 - 1000000, stp.2)

/-- The resort pass: renumber every surviving item in file order with
the fixed step. -/
def resortPass (st : LState) (newItems : List Nat) : LState × Bool :=
  let r := newItems.foldl resortStep (st, 0, false)
  (r.1, r.2.2)

/-- `ListItem.delete()` for every unmatched item. -/
def deletePass (st : LState) (ids : List Nat) : LState :=
  ids.foldl (fun s i => setItem s i (fun x => { x with deleted := true })) st

/-- `_parse_list_body lines note start`: walk the body lines, resort if
needed, delete the unmatched items.  Returns the new arena plus whether
the note was touched. -/
def parseListBody (lines : List Str) (st0 : LState) (start : Nat) : LState × Bool :=
  let init : WalkSt :=
    ⟨st0, buildDict (itemsView st0), none, [], none, false, false⟩
  let w := (lines.drop start).foldl
    (fun w line =>
      match classifyLine line with
      | some li => walkStep w li
      | none => w) init
  let sd :=
    if w.resort then
      let r := resortPass w.st w.newItems
      (r.1, w.dirty || r.2)
    else (w.st, w.dirty)
  let leftover := dictIds w.dict
  (deletePass sd.1 leftover, sd.2 || !leftover.isEmpty)

/-- `keep.parse` (with neorg disabled this is also `parser.parse` on a
line list). -/
def parseNote (labels : List Label) (lines : List Str) (n : GNote) : GNote :=
  let (h, ls, i) := parseHeader labels lines
  let n := syncHeader n h ls
  match n.body with
  | .note text0 => parseNoteBody lines n i text0
  | .list st =>
    let (st2, touched) := parseListBody lines st i
    { n with body := .list st2, dirty := n.dirty || touched }

/-! ## Naming / addressing: `util.NoteUrl`, `api.py` title counters -/

/-- A `collections.Counter` keyed by escaped titles. -/
abbrev Counter := List (Str × Nat)

def counterGet (c : Counter) (k : Str) : Nat :=
  match c with
  | [] => 0
  | (t, n) :: rest => if t == k then n else counterGet rest k

def counterInc (c : Counter) (k : Str) : Counter :=
  match c with
  | [] => [(k, 1)]
  | (t, n) :: rest => if t == k then (t, n + 1) :: rest else (t, n) :: counterInc rest k

/-- One `apply_updates` counting step (api.py lines 129-134): every
non-trashed note bumps the counter of its partition under its escaped
title.  (Python `escape(note.title)` presumes a non-None title; an
absent title counts as the empty string here.) -/
def countStep (acc : Counter × Counter) (n : GNote) : Counter × Counter :=
  if n.trashed then acc
  else if n.archived then (acc.1, counterInc acc.2 (escape (n.title.getD [])))
  else (counterInc acc.1 (escape (n.title.getD [])), acc.2)

/-- The `apply_updates` recount of both uniqueness counters. -/
def computeTitleCounts (notes : List GNote) : Counter × Counter :=
  notes.foldl countStep ([], [])

inductive MState where
  | Uninitialized | InitialSync | Running | ShuttingDown
  deriving Repr, DecidableEq

/-- The slice of `Config` the sync engine reads.  `support_neorg` is
fixed to False in this model, so `parser.get_ext` is always "keep" and
`parser.serialize` / `parser.parse` are the keep codec. -/
structure MConfig where
  sync_dir : Option Str
  sync_archived_notes : Bool
  state : MState
  deriving Repr, DecidableEq

def archiveSyncDir (cfg : MConfig) : Option Str :=
  match cfg.sync_dir with
  | some d => if cfg.sync_archived_notes then some (d ++ chars "/archived") else none
  | none => none

/-- The slice of `KeepApi` the sync engine uses.  `genId` supplies the
ids gkeepapi generates for new nodes. -/
structure Api where
  notes : List GNote
  labels : List Label
  titleCount : Counter
  archivedTitleCount : Counter
  genId : Nat
  deriving Repr, DecidableEq

def Api.get (api : Api) (i : Option Str) : Option GNote :=
  match i with
  | some s => api.notes.find? (fun n => n.id == s)
  | none => none

/-- `KeepApi.has_unique_title`. -/
def hasUniqueTitle (api : Api) (n : GNote) : Bool :=
  counterGet (if n.archived then api.archivedTitleCount else api.titleCount)
    (escape (n.title.getD [])) < 2

structure MUrl where
  id : Option Str
  title : Option Str
  deriving Repr, DecidableEq

/-- `NoteUrl.__init__` maps falsy ids/titles to None. -/
def mkUrl (id title : Option Str) : MUrl :=
  ⟨match id with
   | some s => if s.isEmpty then none else some s
   | none => none,
   match title with
   | some t => if t.isEmpty then none else some t
   | none => none⟩

def MUrl.fromNote (n : GNote) : MUrl := mkUrl (some n.id) n.title

/-- `NoteUrl._get_filename` (neorg disabled, so the extension is
"keep"): the escaped title alone when the title is unique, else title,
colon and id, all run through `escape`. -/
def getFilename (api : Api) (url : MUrl) (n : GNote) : Str :=
  if hasUniqueTitle api n then
    escape (reprOpt url.title ++ chars ".keep")
  else
    escape (reprOpt url.title ++ chars ":" ++ reprOpt url.id ++ chars ".keep")

/-- `NoteUrl.filepath`. -/
def MUrl.filepath (url : MUrl) (api : Api) (cfg : MConfig) (n : GNote) : Option Str :=
  if n.trashed then none
  else
    match cfg.sync_dir with
    | none => none
    | some d =>
      if n.archived && !cfg.sync_archived_notes then none
      else
        some ((if n.archived then d ++ chars "/archived" else d) ++
          '/' :: getFilename api url n)

/-- `NoteUrl.ephemeral_bufname` (extension fixed to "keep"). -/
def ephemeralBufname (url : MUrl) : Str :=
  chars "gkeep://" ++ url.id.getD [] ++
    '/' :: replaceWs (url.title.getD []) ++ chars ".keep"

def isEphemeral (s : Str) : Bool := startsWith (chars "gkeep://") s

/-- `NoteUrl.bufname`. -/
def MUrl.bufname (url : MUrl) (api : Api) (cfg : MConfig) (n : GNote) : Str :=
  (url.filepath api cfg n).getD (ephemeralBufname url)

/-! ## The sync engine: `fssync.py` over an explicit filesystem

The file tree under `sync_dir` is an association list from absolute
path to the file's lines; `os.walk` enumerates it in list order, and
real trees have unique paths.  MD5 content hashes (`_hash_content`,
`_hash_file`) are modeled as content identity.  A `false` `ok` flag
marks a raised Python exception (a failed `assert`, or `os.rename` on a
missing file): nothing after it executes. -/

abbrev FS := List (Str × List Str)

def fsGet (fs : FS) (p : Str) : Option (List Str) :=
  (fs.find? (fun e => e.1 == p)).map (fun e => e.2)

def fsExists (fs : FS) (p : Str) : Bool := (fsGet fs p).isSome

/-- `open(p, "w")`: replace in place, else create at the end. -/
def fsSet (fs : FS) (p : Str) (c : List Str) : FS :=
  match fs with
  | [] => [(p, c)]
  | e :: rest => if e.1 == p then (p, c) :: rest else e :: fsSet rest p c

/-- `os.unlink`. -/
def fsDel (fs : FS) (p : Str) : FS := fs.filter (fun e => e.1 != p)

/-- `get_local_file`. -/
def localFile (p : Str) : Str := p ++ chars ".local"

/-- `_soft_delete`: `os.rename(p, p + ".local")`.  Callers either check
existence first or run under the `ok` latch. -/
def softDelete (fs : FS) (p : Str) : FS :=
  match fsGet fs p with
  | some c => fsSet (fsDel fs p) (localFile p) c
  | none => fs

/-- `_content_changed` (hash inequality as content inequality). -/
def contentChanged (fs : FS) (p : Str) (lines : List Str) : Bool :=
  fsGet fs p != some lines

/-- `_write_file`. -/
def writeFileOp (fs : FS) (p : Str) (lines : List Str) (keepBackup : Bool) : FS :=
  let fs := if fsExists fs p && keepBackup then softDelete fs p else fs
  fsSet fs p lines

def basename (p : Str) : Str := (p.reverse.takeWhile (fun c => c != '/')).reverse

/-- `os.path.splitext` on a basename: split at the last dot; leading
dots are not an extension. -/
def splitExtName (b : Str) : Str × Str :=
  let lead := b.takeWhile (fun c => c == '.')
  let core := b.dropWhile (fun c => c == '.')
  let afterDot := (core.reverse.takeWhile (fun c => c != '.')).reverse
  match core.reverse.dropWhile (fun c => c != '.') with
  | [] => (lead ++ core, [])
  | _ :: restTail => (lead ++ restTail.reverse, '.' :: afterDot)

/-- `util.get_ext`. -/
def utilGetExt (p : Str) : Str :=
  let b := basename p
  let ext := (splitExtName b).2
  pyLower (if ext.isEmpty && startsWith (chars ".") b then b else ext)

/-- `parser.url_from_file` resolution of one on-disk file from its
content (keep-only model: `.norg` files do not occur, and `gkeep://`
names never appear as walked paths).  Id and title come from
`keep.get_metadata` = `_parse_meta` of the first five lines; a falsy
title falls back to the file's stem. -/
def urlOfEntry (cfg : MConfig) (path : Str) (content : List Str) : Option MUrl :=
  if isEphemeral path then none
  else
    match cfg.sync_dir with
    | none => none
    | some d =>
      if !startsWith d path then none
      else
        let se := splitExtName (basename path)
        if pyLower se.2 != chars ".keep" then none
        else
          let h := (parseMeta (content.take 5)).1
          let t := match h.title with
            | some t => if t.isEmpty then se.1 else t
            | none => se.1
          some (mkUrl h.id (some t))

def urlFromFile (cfg : MConfig) (fs : FS) (path : Str) : Option MUrl :=
  (fsGet fs path).bind (urlOfEntry cfg path)

/-- `_find_files`. -/
def findFiles (cfg : MConfig) (fs : FS) : List (Str × MUrl) :=
  match cfg.sync_dir with
  | none => []
  | some _ => fs.filterMap (fun e => (urlOfEntry cfg e.1 e.2).map (fun u => (e.1, u)))

/-- `NoteFile`. -/
structure MNoteFile where
  url : MUrl
  bufname : Str
  lines : Option (List Str)
  deriving Repr, DecidableEq

/-- `NoteFile.from_note`. -/
def noteFileOf (api : Api) (cfg : MConfig) (n : GNote) : MNoteFile :=
  let url := MUrl.fromNote n
  let bufname := url.bufname api cfg n
  ⟨url, bufname, if isEphemeral bufname then none else some (serializeNote n)⟩

def assocSet (m : List (Str × Str)) (k v : Str) : List (Str × Str) :=
  match m with
  | [] => [(k, v)]
  | e :: rest => if e.1 == k then (k, v) :: rest else e :: assocSet rest k v

def assocPop (m : List (Str × Str)) (k : Str) : Option Str × List (Str × Str) :=
  match m with
  | [] => (none, [])
  | e :: rest =>
    if e.1 == k then (some e.2, rest)
    else
      let r := assocPop rest k
      (r.1, e :: r.2)

/-- `files_by_id` (a dict: later duplicates overwrite in place). -/
def filesById (cfg : MConfig) (fs : FS) : List (Str × Str) :=
  (findFiles cfg fs).foldl
    (fun m e =>
      match e.2.id with
      | some i => assocSet m i e.1
      | none => m) []

/-- State threaded through the `_write_files` note loop. -/
structure WFSt where
  fs : FS
  renames : List (Str × Str)
  needLoad : List Str
  fbi : List (Str × Str)
  ok : Bool
  deriving Repr, DecidableEq

/-- The write/conflict stage ending one `_write_files` iteration
(fssync.py lines 302-308). -/
def wfWrite (prot updated : List Str) (initialLoad : Bool)
    (nid : Str) (st : WFSt) (target : Str) (lines : List Str) : WFSt :=
  if !(fsExists st.fs target) then { st with fs := writeFileOp st.fs target lines false }
  else if updated.contains nid && contentChanged st.fs target lines then
    { st with fs := writeFileOp st.fs target lines (prot.contains target) }
  else if initialLoad && contentChanged st.fs target lines then
    { st with needLoad := st.needLoad ++ [target] }
  else st

/-- One iteration of the `_write_files` note loop (fssync.py 279-308). -/
def wfStep (prot updated : List Str) (initialLoad : Bool)
    (st : WFSt) (nf : MNoteFile) : WFSt :=
  if !st.ok then st
  else
    match nf.url.id with
    | none => { st with ok := false }
    | some nid =>
      let pr := assocPop st.fbi nid
      let st1 := { st with fbi := pr.2 }
      match pr.1 with
      | some ef =>
        if isEphemeral nf.bufname then
          if fsExists st1.fs ef then
            { st1 with
              fs := if prot.contains ef then softDelete st1.fs ef else fsDel st1.fs ef,
              renames := assocSet st1.renames ef nf.bufname }
          else st1
        else
          let st2 := if ef != nf.bufname
            then { st1 with renames := assocSet st1.renames ef nf.bufname }
            else st1
          let target := if ef != nf.bufname then ef else nf.bufname
          match nf.lines with
          | none => { st2 with ok := false }
          | some lines => wfWrite prot updated initialLoad nid st2 target lines
      | none =>
        if isEphemeral nf.bufname then st1
        else
          match nf.lines with
          | none => { st1 with ok := false }
          | some lines =>
            let st2 := { st1 with
              renames := assocSet st1.renames (ephemeralBufname nf.url) nf.bufname }
            wfWrite prot updated initialLoad nid st2 nf.bufname lines

/-- `_write_files`. -/
def writeFilesCore (cfg : MConfig) (prot : List Str) (nfs : List MNoteFile)
    (updated : List Str) (initialLoad : Bool) (fs0 : FS) : WFSt :=
  match cfg.sync_dir with
  | none => ⟨fs0, [], [], [], true⟩
  | some _ =>
    let st0 : WFSt := ⟨fs0, [], [], filesById cfg fs0, true⟩
    let st := nfs.foldl (wfStep prot updated initialLoad) st0
    if initialLoad then
      st.fbi.foldl
        (fun s e =>
          if !s.ok then s
          else if fsExists s.fs e.2 then { s with fs := softDelete s.fs e.2 }
          else { s with ok := false })
        st
    else st

/-- `FileSync.write_files` (Running state; empty protected set). -/
def writeFiles (cfg : MConfig) (fs : FS) (nfs : List MNoteFile) : WFSt :=
  if cfg.state != MState.Running then ⟨fs, [], [], [], false⟩
  else writeFilesCore cfg [] nfs (nfs.filterMap (fun nf => nf.url.id)) false fs

/-- Python falsy test for an optional string title. -/
def notTitle (t : Option Str) : Bool :=
  match t with
  | some s => s.isEmpty
  | none => true

def apiReplace (api : Api) (oldId : Str) (n : GNote) : Api :=
  { api with notes := api.notes.map (fun m => if m.id == oldId then n else m) }

def apiAdd (api : Api) (n : GNote) : Api :=
  { api with notes := api.notes ++ [n], genId := api.genId + 1 }

/-- Fresh gkeepapi node ids, drawn from the api id counter. -/
def natStr (n : Nat) : Str := Nat.toDigits 10 n

/-- `FileSync._load_file`. -/
def loadFile (api : Api) (fs : FS) (path : Str) (url : MUrl) : Api × Option GNote :=
  match api.get url.id with
  | none => (api, none)
  | some n =>
    let lines := (fsGet fs path).getD []
    let n2 := parseNote api.labels lines n
    let n3 := if notTitle n2.title then setTitle n2 url.title else n2
    (apiReplace api n.id n3, some n3)

/-- `FileSync._find_files_with_changes`: dump the api, probe every
resolvable file by parsing it into its note, collect the files whose
note is missing or left dirty, then restore the dump. -/
def findFilesWithChangesFull (api : Api) (cfg : MConfig) (fs : FS) : Api × List Str :=
  let saved := api
  let r := (findFiles cfg fs).foldl
    (fun acc e =>
      let pr := loadFile acc.1 fs e.1 e.2
      match pr.2 with
      | none => (pr.1, acc.2 ++ [e.1])
      | some n => (pr.1, if n.dirty then acc.2 ++ [e.1] else acc.2))
    (api, [])
  (saved, r.2)

/-- `FileSync.start`. -/
def startFS (cfg : MConfig) (api : Api) (fs : FS) (snapshot : Option Api) :
    Api × List Str × Bool :=
  if cfg.state != MState.Uninitialized then (api, [], false)
  else
    match snapshot with
    | none => (api, (findFiles cfg fs).map (fun e => e.1), true)
    | some snap =>
      let pr := findFilesWithChangesFull snap cfg fs
      (pr.1, pr.2, true)

/-- The probe pass of `start`, run directly on the restored snapshot:
a file is recorded exactly when its sequential probe parse finds no
note or leaves the note dirty. -/
def probeTouched (snap : Api) (cfg : MConfig) (fs : FS) : List Str :=
  ((findFiles cfg fs).foldl
    (fun acc e =>
      let pr := loadFile acc.1 fs e.1 e.2
      match pr.2 with
      | none => (pr.1, acc.2 ++ [e.1])
      | some n => (pr.1, if n.dirty then acc.2 ++ [e.1] else acc.2))
    (snap, [])).2

/-- `_make_backup` of a checklist rebuilds the items on a fresh arena
(`backup.add`, then `indent` under the image of the parent; a dangling
parent link would raise in Python and is out of scope). -/
def rebuildList (st : LState) : LState :=
  let view := itemsView st
  let ids := view.map (fun it => it.id)
  ⟨view.enum.map (fun e =>
      (⟨e.1, e.2.text, e.2.checked,
        e.2.parentId.map (fun pid => ids.indexOf pid),
        e.2.sort, false⟩ : LItem)),
    view.length⟩

/-- `_make_backup`: same content on a fresh node, trashed, dated
title (`today` stands for `datetime.now().date()`). -/
def makeBackup (today : Str) (freshId : Str) (n : GNote) : GNote :=
  let body := match n.body with
    | .note text => NBody.note text
    | .list st => NBody.list (rebuildList st)
  setTitle
    ⟨freshId, none, [], true, false, true, body⟩
    (some (chars "[Backup " ++ today ++ chars "] " ++ reprOpt n.title))

def insertAt (l : List α) (i : Nat) (a : α) : List α := l.take i ++ a :: l.drop i

/-- `keep._write_meta` on a line list. -/
def writeMetaLines (lines : List Str) (nid : Str) (title : Str) : List Str :=
  let h := (parseMeta lines).1
  let l1 := match h.title with
    | none => insertAt lines 0 (chars "# " ++ title)
    | some t => if t != title then lines.set 0 (chars "# " ++ title) else lines
  match h.id with
  | none => insertAt l1 1 (chars "id: " ++ nid)
  | some i => if i != nid then l1.set 1 (chars "id: " ++ nid) else l1

/-- `keep.detect_note_type`: LIST when the file is a `.keep` file and
one of the first eight lines looks like a list item. -/
def detectNoteType (path : Str) (lines : List Str) : Bool :=
  utilGetExt path == chars ".keep" && (lines.take 8).any (fun l => (matchListItem l).isSome)

/-- `create_note_from_file` (called only for id-less files). -/
def createNoteFromFile (api : Api) (cfg : MConfig) (fs : FS) (filename : Str)
    (url : MUrl) : Api × FS × Option (Str × Str) :=
  let lines := (fsGet fs filename).getD []
  let isList := detectNoteType filename lines
  let nid := natStr api.genId
  let n0 : GNote := ⟨nid, some [], [], false, false, true,
    if isList then NBody.list ⟨[], 0⟩ else NBody.note []⟩
  let api1 := apiAdd api n0
  let url1 : MUrl := { url with id := some nid }
  let n1 := parseNote api1.labels lines n0
  let pr :=
    if notTitle n1.title then (setTitle n1 url1.title, url1)
    else (n1, { url1 with title := n1.title })
  let api2 := apiReplace api1 nid pr.1
  let titleStr := (pr.2.title).getD (chars "Unknown")
  let fs2 := fsSet fs filename (writeMetaLines lines nid titleStr)
  let newFp := MUrl.filepath pr.2 api2 cfg pr.1
  (api2, fs2,
    match newFp with
    | some p => if p != filename then some (filename, p) else none
    | none => none)

/-- `FileSync._load_new_files`. -/
def loadNewFiles (cfg : MConfig) (api : Api) (fs : FS) :
    Api × FS × List (Str × Str) :=
  (findFiles cfg fs).foldl
    (fun acc e =>
      if acc.1.get e.2.id |>.isNone then
        match e.2.id with
        | none =>
          let r := createNoteFromFile acc.1 cfg acc.2.1 e.1 e.2
          (r.1, r.2.1,
            match r.2.2 with
            | some pr => assocSet acc.2.2 pr.1 pr.2
            | none => acc.2.2)
        | some _ => acc
      else acc)
    (api, fs, [])

/-- `FileSync.finish_startup` (InitialSync state). -/
def finishStartup (cfg : MConfig) (api : Api) (fs : FS) (prot : List Str)
    (updated : List Str) (today : Str) : Api × FS × List (Str × Str) × Bool :=
  if cfg.state != MState.InitialSync then (api, fs, [], false)
  else
    let nfs := api.notes.map (fun n => noteFileOf api cfg n)
    let w := writeFilesCore cfg prot nfs updated true fs
    let step := fun (acc : Api × Bool) (filename : Str) =>
      if !acc.2 then acc
      else
        match urlFromFile cfg w.fs filename with
        | none => (acc.1, false)
        | some url =>
          match acc.1.get url.id with
          | none => (acc.1, false)
          | some note =>
            let backup := makeBackup today (natStr acc.1.genId) note
            let api2 := apiAdd acc.1 backup
            ((loadFile api2 w.fs filename url).1, true)
    let r := w.needLoad.foldl step (api, w.ok)
    if !r.2 then (r.1, w.fs, w.renames, false)
    else
      let lnf := loadNewFiles cfg r.1 w.fs
      (lnf.1, lnf.2.1,
        lnf.2.2.foldl (fun m e => assocSet m e.1 e.2) w.renames,
        true)

/-! ## C6: filename disambiguation -/

theorem escape_append (a b : Str) : escape (a ++ b) = escape a ++ escape b := by
  simp [escape, replaceWs, List.filter_append]

theorem escape_alnum (s : Str) (h : ∀ c ∈ s, c.isAlphanum) : escape s = s := by
  induction s with
  | nil => rfl
  | cons c rest ih =>
    have hc : c.isAlphanum := h c (List.mem_cons_self c rest)
    have hs : isPySpace c = false := by
      by_cases hb : isPySpace c = true
      · exfalso
        have hb2 : c = ' ' ∨ c = '\t' ∨ c = '\n' ∨ c = '\x0d' ∨ c = '\x0b' ∨ c = '\x0c' := by
          simpa [isPySpace, or_assoc] using hb
        rcases hb2 with hb2 | hb2 | hb2 | hb2 | hb2 | hb2 <;> subst hb2 <;>
          exact absurd hc (by decide)
      · simpa using hb
    have hrest := ih (fun x hx => h x (List.mem_cons_of_mem c hx))
    simp only [escape, replaceWs, List.map_cons, List.filter_cons, hs, Bool.false_eq_true,
      if_false, hc, Bool.true_or, if_true]
    simp only [escape, replaceWs] at hrest
    rw [hrest]

theorem counterGet_counterInc (c : Counter) (k j : Str) :
    counterGet (counterInc c k) j = counterGet c j + (if k = j then 1 else 0) := by
  induction c with
  | nil =>
    by_cases h : k = j <;> simp [counterInc, counterGet, h]
  | cons e rest ih =>
    obtain ⟨t, n⟩ := e
    by_cases htk : t = k
    · subst htk
      by_cases htj : t = j
      · subst htj
        simp [counterInc, counterGet]
      · have hj : (t == j) = false := by simp [htj]
        simp [counterInc, counterGet, hj, htj]
    · have htk2 : (t == k) = false := by simp [htk]
      by_cases htj : t = j
      · subst htj
        have hkt : ¬ k = t := fun h2 => htk h2.symm
        simp [counterInc, counterGet, htk2, hkt]
      · have hj : (t == j) = false := by simp [htj]
        simp [counterInc, counterGet, htk2, hj, ih]

theorem counterGet_countStep_ge (acc : Counter × Counter) (n : GNote) (k : Str) :
    counterGet acc.1 k ≤ counterGet (countStep acc n).1 k := by
  unfold countStep
  by_cases h1 : n.trashed <;> by_cases h2 : n.archived <;>
    simp [h1, h2, counterGet_counterInc]

theorem counterGet_foldTC_ge (ns : List GNote) (acc : Counter × Counter) (k : Str) :
    counterGet acc.1 k ≤ counterGet (ns.foldl countStep acc).1 k := by
  induction ns generalizing acc with
  | nil => simp
  | cons n rest ih =>
    calc counterGet acc.1 k ≤ counterGet (countStep acc n).1 k :=
          counterGet_countStep_ge acc n k
      _ ≤ _ := ih (countStep acc n)

theorem title_counted_twice (xs ys zs : List GNote) (n1 n2 : GNote) (e : Str)
    (h1t : n1.trashed = false) (h1a : n1.archived = false)
    (h2t : n2.trashed = false) (h2a : n2.archived = false)
    (he1 : escape (n1.title.getD []) = e) (he2 : escape (n2.title.getD []) = e) :
    2 ≤ counterGet (computeTitleCounts (xs ++ n1 :: ys ++ n2 :: zs)).1 e := by
  unfold computeTitleCounts
  rw [List.foldl_append, List.foldl_cons, List.foldl_append, List.foldl_cons]
  set a0 := List.foldl countStep ([], []) xs with ha0
  have s1 : counterGet (countStep a0 n1).1 e = counterGet a0.1 e + 1 := by
    simp [countStep, h1t, h1a, he1, counterGet_counterInc]
  have s2 : counterGet (countStep a0 n1).1 e ≤
      counterGet (List.foldl countStep (countStep a0 n1) ys).1 e :=
    counterGet_foldTC_ge ys (countStep a0 n1) e
  set a1 := List.foldl countStep (countStep a0 n1) ys with ha1
  have s3 : counterGet (countStep a1 n2).1 e = counterGet a1.1 e + 1 := by
    simp [countStep, h2t, h2a, he2, counterGet_counterInc]
  have s4 : counterGet (countStep a1 n2).1 e ≤
      counterGet (List.foldl countStep (countStep a1 n2) zs).1 e :=
    counterGet_foldTC_ge zs (countStep a1 n2) e
  omega

/-- C6 (claim as stated): with two non-trashed, non-archived notes both
titled "Foo" (ids "abc" and "xyz") and counters recomputed from the
note set, the first filename is NOT `Foo:abc.keep` — the colon is
stripped by `escape` — so the claimed filename shape is wrong. -/
theorem c6_counterexample :
    (let n1 : GNote :=
      ⟨chars "abc", some (chars "Foo"), [], false, false, false, .note []⟩
     let n2 : GNote :=
      ⟨chars "xyz", some (chars "Foo"), [], false, false, false, .note []⟩
     let tc := computeTitleCounts [n1, n2]
     let api : Api := ⟨[n1, n2], [], tc.1, tc.2, 0⟩
     getFilename api (MUrl.fromNote n1) n1 = chars "Fooabc.keep" ∧
       getFilename api (MUrl.fromNote n1) n1 ≠ chars "Foo:abc.keep") := by
  constructor <;> decide

/-- C6 (amended): two materializable, non-trashed, non-archived notes
sharing an escaped title get filenames `escape(title) ++ id ++ ".keep"`
(the colon of the `title:id.ext` pattern is stripped by `escape`), and
neither gets the undisambiguated `escape(title) ++ ".keep"`. -/
theorem c6_filename_disambiguation (xs ys zs : List GNote) (n1 n2 : GNote)
    (api : Api) (t1 t2 : Str)
    (hc : api.titleCount = (computeTitleCounts (xs ++ n1 :: ys ++ n2 :: zs)).1)
    (h1t : n1.trashed = false) (h1a : n1.archived = false)
    (h2t : n2.trashed = false) (h2a : n2.archived = false)
    (ht1 : n1.title = some t1) (ht2 : n2.title = some t2)
    (ht1e : t1 ≠ []) (ht2e : t2 ≠ [])
    (he : escape t1 = escape t2)
    (hid1 : n1.id ≠ []) (hid2 : n2.id ≠ [])
    (hw1 : ∀ c ∈ n1.id, c.isAlphanum) (hw2 : ∀ c ∈ n2.id, c.isAlphanum) :
    getFilename api (MUrl.fromNote n1) n1 = escape t1 ++ n1.id ++ chars ".keep" ∧
    getFilename api (MUrl.fromNote n2) n2 = escape t2 ++ n2.id ++ chars ".keep" ∧
    getFilename api (MUrl.fromNote n1) n1 ≠ escape t1 ++ chars ".keep" ∧
    getFilename api (MUrl.fromNote n2) n2 ≠ escape t2 ++ chars ".keep" := by
  have hcount1 : 2 ≤ counterGet api.titleCount (escape (n1.title.getD [])) := by
    rw [hc, ht1]
    simp only [Option.getD_some]
    exact title_counted_twice xs ys zs n1 n2 (escape t1) h1t h1a h2t h2a
      (by simp [ht1]) (by simp [ht2, ← he])
  have hcount2 : 2 ≤ counterGet api.titleCount (escape (n2.title.getD [])) := by
    rw [hc, ht2]
    simp only [Option.getD_some]
    exact title_counted_twice xs ys zs n1 n2 (escape t2) h1t h1a h2t h2a
      (by simp [ht1, he]) (by simp [ht2])
  have hu1 : hasUniqueTitle api n1 = false := by
    simp only [hasUniqueTitle, h1a, Bool.false_eq_true, if_false, decide_eq_false_iff_not]
    omega
  have hu2 : hasUniqueTitle api n2 = false := by
    simp only [hasUniqueTitle, h2a, Bool.false_eq_true, if_false, decide_eq_false_iff_not]
    omega
  have hurl1t : (MUrl.fromNote n1).title = some t1 := by
    simp [MUrl.fromNote, mkUrl, ht1, List.isEmpty_iff, ht1e]
  have hurl1i : (MUrl.fromNote n1).id = some n1.id := by
    simp [MUrl.fromNote, mkUrl, List.isEmpty_iff, hid1]
  have hurl2t : (MUrl.fromNote n2).title = some t2 := by
    simp [MUrl.fromNote, mkUrl, ht2, List.isEmpty_iff, ht2e]
  have hurl2i : (MUrl.fromNote n2).id = some n2.id := by
    simp [MUrl.fromNote, mkUrl, List.isEmpty_iff, hid2]
  have hdot : escape (chars ".keep") = chars ".keep" := by decide
  have hcolon : ∀ s : Str, escape (':' :: s) = escape s := by
    intro s
    simp [escape, replaceWs, List.filter_cons, isPySpace]
  have hfn : ∀ (t i : Str), (∀ c ∈ i, c.isAlphanum) →
      escape (t ++ chars ":" ++ i ++ chars ".keep") = escape t ++ i ++ chars ".keep" := by
    intro t i hw
    rw [escape_append, escape_append, escape_append, escape_alnum i hw, hdot]
    have hce : escape (chars ":") = [] := by decide
    rw [hce, List.append_nil]
  have fn1 : getFilename api (MUrl.fromNote n1) n1 =
      escape t1 ++ n1.id ++ chars ".keep" := by
    simp only [getFilename, hu1, Bool.false_eq_true, if_false, hurl1t, hurl1i, reprOpt]
    exact hfn t1 n1.id hw1
  have fn2 : getFilename api (MUrl.fromNote n2) n2 =
      escape t2 ++ n2.id ++ chars ".keep" := by
    simp only [getFilename, hu2, Bool.false_eq_true, if_false, hurl2t, hurl2i, reprOpt]
    exact hfn t2 n2.id hw2
  refine ⟨fn1, fn2, ?_, ?_⟩
  · rw [fn1]
    intro hbad
    have hlen := congrArg List.length hbad
    simp only [List.length_append] at hlen
    have : n1.id.length ≠ 0 := by simpa [List.length_eq_zero] using hid1
    omega
  · rw [fn2]
    intro hbad
    have hlen := congrArg List.length hbad
    simp only [List.length_append] at hlen
    have : n2.id.length ≠ 0 := by simpa [List.length_eq_zero] using hid2
    omega

/-- Fixture: a non-trashed, non-archived note titled Foo with id abc. -/
def noteFoo1 : GNote :=
  ⟨chars "abc", some (chars "Foo"), [], false, false, false, .note []⟩

/-- Fixture: a second note with the same title Foo and id xyz. -/
def noteFoo2 : GNote :=
  ⟨chars "xyz", some (chars "Foo"), [], false, false, false, .note []⟩

/-- Fixture: an api whose uniqueness counters were recomputed from the
two Foo notes, as `apply_updates` does. -/
def apiFoo : Api :=
  ⟨[noteFoo1, noteFoo2], [], (computeTitleCounts [noteFoo1, noteFoo2]).1,
    (computeTitleCounts [noteFoo1, noteFoo2]).2, 0⟩

/-- Witness: the amended C6 theorem applied to the two concrete Foo
notes yields the disambiguated (colon-stripped) filenames. -/
theorem c6_filename_disambiguation_witness :
    getFilename apiFoo (MUrl.fromNote noteFoo1) noteFoo1 = chars "Fooabc.keep" ∧
    getFilename apiFoo (MUrl.fromNote noteFoo2) noteFoo2 = chars "Fooxyz.keep" := by
  have h := c6_filename_disambiguation [] [] [] noteFoo1 noteFoo2 apiFoo
    (chars "Foo") (chars "Foo") rfl rfl rfl rfl rfl rfl rfl (by decide) (by decide) rfl
    (by decide) (by decide) (by decide) (by decide)
  exact ⟨by rw [h.1]; decide, by rw [h.2.1]; decide⟩

/-! ## C7: new item creation in checklist reconciliation -/

/-- C7: reconciling a checklist whose only item is (A, id 1, sort s,
unchecked, non-indented) against the lines `[ ] A` and `[ ] C` yields
exactly two items: the existing item id 1 completely unchanged, and a
freshly assigned item (its id the arena's fresh id, distinct from 1)
with sort exactly s - 1000000; the items view lists them in that
order. -/
theorem c7_new_item_creation (s : Int) (nid : Nat) (h : 1 < nid) :
    (let st0 : LState := ⟨[⟨1, chars "A", false, none, s, false⟩], nid⟩
     let r := parseListBody [chars "[ ] A", chars "[ ] C"] st0 0
     r.1.items = [⟨1, chars "A", false, none, s, false⟩,
       ⟨nid, chars "C", false, none, s - 1000000, false⟩] ∧
     itemsView r.1 = r.1.items ∧ nid ≠ 1) := by
  have hns : (decide (s ≤ s - 1000000) : Bool) = false := by
    simp only [decide_eq_false_iff_not]
    omega
  have hlt : ¬ (s < s - 1000000) := by omega
  have hne : ¬ (s - 1000000 = s) := by omega
  refine ⟨?_, ?_, by omega⟩
  · simp [parseListBody, buildDict, itemsView, sortByGT, insertByGT, keyGT, itemKey, pairGT,
      dictAdd, dictPop, classifyLine, matchListItem, walkStep, findItem, addItem, setItem,
      dictIds, deletePass, chars, isPySpace, pyStrip, pyLStrip, pyRStrip, hns, resortPass,
      stagePop, stageMutate,
      LItem.indented, dedentItem, indentItem, rawIndent, childrenOf, Option.isSome]
  · simp [parseListBody, buildDict, itemsView, sortByGT, insertByGT, keyGT, itemKey, pairGT,
      dictAdd, dictPop, classifyLine, matchListItem, walkStep, findItem, addItem, setItem,
      dictIds, deletePass, chars, isPySpace, pyStrip, pyLStrip, pyRStrip, hns, resortPass,
      stagePop, stageMutate,
      LItem.indented, dedentItem, indentItem, rawIndent, childrenOf, Option.isSome,
      hlt, hne]

/-- Witness: C7 at s = 10 with fresh id 2. -/
theorem c7_new_item_creation_witness :
    (1 < 2 ∧
      (let st0 : LState := ⟨[⟨1, chars "A", false, none, (10 : Int), false⟩], 2⟩
       let r := parseListBody [chars "[ ] A", chars "[ ] C"] st0 0
       r.1.items = [⟨1, chars "A", false, none, 10, false⟩,
         ⟨2, chars "C", false, none, 10 - 1000000, false⟩] ∧
       itemsView r.1 = r.1.items ∧ 2 ≠ 1)) :=
  ⟨by decide, c7_new_item_creation 10 2 (by decide)⟩

/-! ## C2: the codec round-trip counterexample -/

/-- Fixture: checklist with a checked parent P over an unchecked
indented child C. -/
def cexList : LState :=
  ⟨[⟨1, chars "P", true, none, 10, false⟩, ⟨2, chars "C", false, some 1, 5, false⟩], 3⟩

/-- Fixture: the checklist note around `cexList`. -/
def cexNote : GNote :=
  ⟨chars "n2", some (chars "T"), [], false, false, false, .list cexList⟩

/-- C2 (claim as stated) is false: for the checklist note with a
checked non-indented item and an unchecked indented child - exactly the
instance the claim singles out - `parse(serialize(n))` flips the child
to checked, so serializing again does NOT reproduce the original
lines. -/
theorem c2_counterexample :
    serializeNote (parseNote [] (serializeNote cexNote) cexNote) ≠ serializeNote cexNote ∧
    serializeNote cexNote =
      [chars "# T", chars "id: n2", [], chars "[x] P", chars "    [ ] C"] ∧
    serializeNote (parseNote [] (serializeNote cexNote) cexNote) =
      [chars "# T", chars "id: n2", [], chars "[x] P", chars "    [x] C"] := by
  refine ⟨by decide, by decide, by decide⟩

/-! ## Background task dispatcher: `thread_util.wrap_lock`

The `max_waiting` path of `wrap_lock` is modeled as a small-step
transition system over a set of caller threads.  Each `with countlock`
block is a single atomic step (every access to the two count dicts in
the source happens under `countlock`); the operation `lock` is held
from its acquisition until after the `finally` block.  Thread program
locations follow the source line by line:

* `start` - about to run the guard block;
* `waiting` - incremented `wait_count`, blocked on `lock`;
* `holding` - acquired `lock`, count update still pending;
* `running` - counts updated, executing `func`;
* `exited` - ran the `finally` decrement, about to leave `with lock`;
* `done` / `dropped` - returned (dropped = the guard bailed out).
-/

inductive DLoc where
  | start | waiting | holding | running | exited | done | dropped
  deriving Repr, DecidableEq

/-- The guard of the counting path: with a bound of 0, drop when an
invocation for this key is running or queued; with a positive bound,
drop when the queue for this key is full. -/
def guardDrops (maxW : Nat) (numRunning numWaiting : Nat) : Bool :=
  if maxW == 0 then decide (0 < numRunning) || decide (0 < numWaiting)
  else decide (maxW ≤ numWaiting)

/-- Shared dispatcher state: one operation lock and the two count dicts
(`run_count`, `wait_count`), plus each caller thread's key and
location. -/
structure WState (K : Type) where
  lock : Bool
  wait : K → Nat
  run : K → Nat
  threads : List (K × DLoc)

def upd [DecidableEq K] (f : K → Nat) (k : K) (v : Nat) : K → Nat :=
  fun x => if x = k then v else f x

/-- One step of thread `i` through `wrap_lock`'s counting path. -/
inductive WStep [DecidableEq K] (maxW : Nat) (i : Nat) : WState K → WState K → Prop where
  | dropStep (s : WState K) (k : K) :
      s.threads.get? i = some (k, .start) →
      guardDrops maxW (s.run k) (s.wait k) = true →
      WStep maxW i s { s with threads := s.threads.set i (k, .dropped) }
  | enqueue (s : WState K) (k : K) :
      s.threads.get? i = some (k, .start) →
      guardDrops maxW (s.run k) (s.wait k) = false →
      WStep maxW i s
        { s with threads := s.threads.set i (k, .waiting),
                 wait := upd s.wait k (s.wait k + 1) }
  | acquire (s : WState K) (k : K) :
      s.threads.get? i = some (k, .waiting) →
      s.lock = false →
      WStep maxW i s { s with lock := true, threads := s.threads.set i (k, .holding) }
  | enter (s : WState K) (k : K) :
      s.threads.get? i = some (k, .holding) →
      WStep maxW i s
        { s with threads := s.threads.set i (k, .running),
                 run := upd s.run k (s.run k + 1),
                 wait := upd s.wait k (s.wait k - 1) }
  | finish (s : WState K) (k : K) :
      s.threads.get? i = some (k, .running) →
      WStep maxW i s
        { s with threads := s.threads.set i (k, .exited),
                 run := upd s.run k (s.run k - 1) }
  | release (s : WState K) (k : K) :
      s.threads.get? i = some (k, .exited) →
      WStep maxW i s { s with lock := false, threads := s.threads.set i (k, .done) }

/-- Any thread steps. -/
def WStepAny [DecidableEq K] (maxW : Nat) (s s2 : WState K) : Prop :=
  ∃ i, WStep maxW i s s2

/-- Initial dispatcher state for a list of caller keys: lock free,
empty count dicts, every caller about to enter the guard. -/
def WInit (ks : List K) : WState K :=
  ⟨false, fun _ => 0, fun _ => 0, ks.map (fun k => (k, .start))⟩

def WReach [DecidableEq K] (maxW : Nat) (ks : List K) (s : WState K) : Prop :=
  Relation.ReflTransGen (WStepAny maxW) (WInit ks) s

/-- Threads at these locations are inside the `with lock` block. -/
def inRegion (l : DLoc) : Bool :=
  match l with
  | .holding | .running | .exited => true
  | _ => false

/-- The mutual-exclusion invariant: at most one thread inside the lock
region, and none when the lock is free. -/
def MutexInv (s : WState K) : Prop :=
  (∀ i j ti tj, i ≠ j → s.threads.get? i = some ti → s.threads.get? j = some tj →
    ¬(inRegion ti.2 = true ∧ inRegion tj.2 = true)) ∧
  (s.lock = false → ∀ i ti, s.threads.get? i = some ti → inRegion ti.2 = false)

theorem lt_of_get?_eq_some {l : List α} {i : Nat} {a : α} (h : l.get? i = some a) :
    i < l.length := by
  by_contra hc
  rw [List.get?_eq_none.mpr (by omega)] at h
  exact absurd h (by simp)

theorem mutexInv_step [DecidableEq K] {maxW i : Nat} {s s2 : WState K}
    (hinv : MutexInv s) (hstep : WStep maxW i s s2) : MutexInv s2 := by
  obtain ⟨hpair, hfree⟩ := hinv
  have setget : ∀ (k2 : K) (l2 : DLoc) (j : Nat) (tj : K × DLoc),
      (s.threads.set i (k2, l2)).get? j = some tj →
      (j = i ∧ tj = (k2, l2)) ∨ (j ≠ i ∧ s.threads.get? j = some tj) := by
    intro k2 l2 j tj hj
    by_cases hji : j = i
    · subst hji
      left
      refine ⟨rfl, ?_⟩
      rw [List.get?_set_eq_of_lt] at hj
      · exact (Option.some_inj.mp hj).symm
      · have : j < (s.threads.set j (k2, l2)).length := lt_of_get?_eq_some hj
        simpa using this
    · right
      rw [List.get?_set_ne _ _ (fun h => hji h.symm)] at hj
      exact ⟨hji, hj⟩
  cases hstep with
  | dropStep k hget hg =>
    refine ⟨?_, ?_⟩
    · intro a b ta tb hab ha hb
      rcases setget _ _ _ _ ha with ⟨hai, hta⟩ | ⟨hai, hta⟩ <;>
        rcases setget _ _ _ _ hb with ⟨hbi, htb⟩ | ⟨hbi, htb⟩
      · exact absurd (hai.trans hbi.symm) hab
      · subst hta; simp [inRegion]
      · subst htb; simp [inRegion]
      · exact hpair a b ta tb hab hta htb
    · intro hl a ta ha
      rcases setget _ _ _ _ ha with ⟨hai, hta⟩ | ⟨hai, hta⟩
      · subst hta; simp [inRegion]
      · exact hfree hl a ta hta
  | enqueue k hget hg =>
    refine ⟨?_, ?_⟩
    · intro a b ta tb hab ha hb
      rcases setget _ _ _ _ ha with ⟨hai, hta⟩ | ⟨hai, hta⟩ <;>
        rcases setget _ _ _ _ hb with ⟨hbi, htb⟩ | ⟨hbi, htb⟩
      · exact absurd (hai.trans hbi.symm) hab
      · subst hta; simp [inRegion]
      · subst htb; simp [inRegion]
      · exact hpair a b ta tb hab hta htb
    · intro hl a ta ha
      rcases setget _ _ _ _ ha with ⟨hai, hta⟩ | ⟨hai, hta⟩
      · subst hta; simp [inRegion]
      · exact hfree hl a ta hta
  | acquire k hget hlock =>
    refine ⟨?_, ?_⟩
    · intro a b ta tb hab ha hb
      rcases setget _ _ _ _ ha with ⟨hai, hta⟩ | ⟨hai, hta⟩ <;>
        rcases setget _ _ _ _ hb with ⟨hbi, htb⟩ | ⟨hbi, htb⟩
      · exact absurd (hai.trans hbi.symm) hab
      · intro hcon
        have := hfree hlock b tb htb
        rw [this] at hcon
        exact absurd hcon.2 (by simp)
      · intro hcon
        have := hfree hlock a ta hta
        rw [this] at hcon
        exact absurd hcon.1 (by simp)
      · exact hpair a b ta tb hab hta htb
    · intro hl
      exact absurd hl (by simp)
  | enter k hget =>
    have hlock : s.lock = true := by
      by_contra hc
      have := hfree (by simpa using hc) i (k, .holding) hget
      simp [inRegion] at this
    refine ⟨?_, ?_⟩
    · intro a b ta tb hab ha hb
      rcases setget _ _ _ _ ha with ⟨hai, hta⟩ | ⟨hai, hta⟩ <;>
        rcases setget _ _ _ _ hb with ⟨hbi, htb⟩ | ⟨hbi, htb⟩
      · exact absurd (hai.trans hbi.symm) hab
      · intro hcon
        refine hpair i b (k, .holding) tb ?_ hget htb ⟨by simp [inRegion], hcon.2⟩
        rw [← hai]
        exact hab
      · intro hcon
        refine hpair a i ta (k, .holding) ?_ hta hget ⟨hcon.1, by simp [inRegion]⟩
        rw [← hbi]
        exact hab
      · exact hpair a b ta tb hab hta htb
    · intro hl
      rw [hlock] at hl
      exact absurd hl (by simp)
  | finish k hget =>
    have hlock : s.lock = true := by
      by_contra hc
      have := hfree (by simpa using hc) i (k, .running) hget
      simp [inRegion] at this
    refine ⟨?_, ?_⟩
    · intro a b ta tb hab ha hb
      rcases setget _ _ _ _ ha with ⟨hai, hta⟩ | ⟨hai, hta⟩ <;>
        rcases setget _ _ _ _ hb with ⟨hbi, htb⟩ | ⟨hbi, htb⟩
      · exact absurd (hai.trans hbi.symm) hab
      · intro hcon
        refine hpair i b (k, .running) tb ?_ hget htb ⟨by simp [inRegion], hcon.2⟩
        rw [← hai]
        exact hab
      · intro hcon
        refine hpair a i ta (k, .running) ?_ hta hget ⟨hcon.1, by simp [inRegion]⟩
        rw [← hbi]
        exact hab
      · exact hpair a b ta tb hab hta htb
    · intro hl
      rw [hlock] at hl
      exact absurd hl (by simp)
  | release k hget =>
    refine ⟨?_, ?_⟩
    · intro a b ta tb hab ha hb
      rcases setget _ _ _ _ ha with ⟨hai, hta⟩ | ⟨hai, hta⟩ <;>
        rcases setget _ _ _ _ hb with ⟨hbi, htb⟩ | ⟨hbi, htb⟩
      · exact absurd (hai.trans hbi.symm) hab
      · subst hta; simp [inRegion]
      · subst htb; simp [inRegion]
      · exact hpair a b ta tb hab hta htb
    · intro _ a ta ha
      rcases setget _ _ _ _ ha with ⟨hai, hta⟩ | ⟨hai, hta⟩
      · subst hta; simp [inRegion]
      · by_cases hreg : inRegion ta.2 = true
        · exact absurd ⟨by simp [inRegion], hreg⟩ (hpair i a (k, .exited) ta (fun h => hai h.symm) hget hta)
        · simpa using hreg

theorem mutexInv_init [DecidableEq K] (ks : List K) : MutexInv (WInit ks) := by
  constructor
  · intro a b ta tb hab ha hb
    have : ta.2 = DLoc.start := by
      simp only [WInit, List.get?_map] at ha
      rcases h : ks.get? a with _ | k2
      · rw [h] at ha; exact absurd ha (by simp)
      · rw [h] at ha
        simp at ha
        rw [← ha]
    rw [this]
    simp [inRegion]
  · intro _ a ta ha
    have : ta.2 = DLoc.start := by
      simp only [WInit, List.get?_map] at ha
      rcases h : ks.get? a with _ | k2
      · rw [h] at ha; exact absurd ha (by simp)
      · rw [h] at ha
        simp at ha
        rw [← ha]
    rw [this]
    simp [inRegion]

theorem mutexInv_reach [DecidableEq K] {maxW : Nat} {ks : List K} {s : WState K}
    (h : WReach maxW ks s) : MutexInv s := by
  induction h with
  | refl => exact mutexInv_init ks
  | tail _ hstep ih =>
    obtain ⟨i, hstep⟩ := hstep
    exact mutexInv_step ih hstep

/-- A dropped thread never moves again. -/
theorem dropped_persists [DecidableEq K] {maxW : Nat} {s s2 : WState K} {i : Nat} {k : K}
    (h : s.threads.get? i = some (k, .dropped)) (hstep : WStepAny maxW s s2) :
    s2.threads.get? i = some (k, .dropped) := by
  obtain ⟨j, hstep⟩ := hstep
  cases hstep with
  | dropStep k2 hget hg =>
    rcases eq_or_ne j i with hji | hji
    · rw [hji, h] at hget
      exact absurd (Option.some_inj.mp hget) (by simp)
    · rw [List.get?_set_ne _ _ hji]
      exact h
  | enqueue k2 hget hg =>
    rcases eq_or_ne j i with hji | hji
    · rw [hji, h] at hget
      exact absurd (Option.some_inj.mp hget) (by simp)
    · rw [List.get?_set_ne _ _ hji]
      exact h
  | acquire k2 hget hl =>
    rcases eq_or_ne j i with hji | hji
    · rw [hji, h] at hget
      exact absurd (Option.some_inj.mp hget) (by simp)
    · rw [List.get?_set_ne _ _ hji]
      exact h
  | enter k2 hget =>
    rcases eq_or_ne j i with hji | hji
    · rw [hji, h] at hget
      exact absurd (Option.some_inj.mp hget) (by simp)
    · rw [List.get?_set_ne _ _ hji]
      exact h
  | finish k2 hget =>
    rcases eq_or_ne j i with hji | hji
    · rw [hji, h] at hget
      exact absurd (Option.some_inj.mp hget) (by simp)
    · rw [List.get?_set_ne _ _ hji]
      exact h
  | release k2 hget =>
    rcases eq_or_ne j i with hji | hji
    · rw [hji, h] at hget
      exact absurd (Option.some_inj.mp hget) (by simp)
    · rw [List.get?_set_ne _ _ hji]
      exact h

theorem dropped_persists_star [DecidableEq K] {maxW : Nat} {s s2 : WState K} {i : Nat} {k : K}
    (h : s.threads.get? i = some (k, .dropped))
    (hsteps : Relation.ReflTransGen (WStepAny maxW) s s2) :
    s2.threads.get? i = some (k, .dropped) := by
  induction hsteps with
  | refl => exact h
  | tail _ hstep ih => exact dropped_persists ih hstep

/-- C8: with a queue bound of 0, a caller whose key already has a
running or queued invocation (a) can only step to `dropped`, touching
neither the lock nor the counts, (b) has that step enabled regardless
of the lock state, (c) stays dropped in every later state - the wrapped
function never executes for that call - and (d) executions are
serialized per key: two threads with the same key are never both
running. -/
theorem c8_drop_semantics {K : Type} [DecidableEq K] (ks : List K) (s : WState K)
    (hreach : WReach 0 ks s) (i : Nat) (k : K)
    (hi : s.threads.get? i = some (k, .start))
    (hbusy : 0 < s.run k ∨ 0 < s.wait k) :
    (∀ s2, WStep 0 i s s2 → s2 = { s with threads := s.threads.set i (k, .dropped) }) ∧
    WStep 0 i s { s with threads := s.threads.set i (k, .dropped) } ∧
    (∀ s2 s3, WStep 0 i s s2 → Relation.ReflTransGen (WStepAny 0) s2 s3 →
      s3.threads.get? i = some (k, .dropped)) ∧
    (∀ a b ta tb, a ≠ b → s.threads.get? a = some ta → s.threads.get? b = some tb →
      ta.1 = tb.1 → ¬(ta.2 = .running ∧ tb.2 = .running)) := by
  have hguard : guardDrops 0 (s.run k) (s.wait k) = true := by
    simp only [guardDrops, beq_self_eq_true, if_true, Bool.or_eq_true, decide_eq_true_eq]
    rcases hbusy with hb | hb
    · exact Or.inl hb
    · exact Or.inr hb
  have honly : ∀ s2, WStep 0 i s s2 →
      s2 = { s with threads := s.threads.set i (k, .dropped) } := by
    intro s2 hstep
    cases hstep with
    | dropStep k2 hget hg =>
      rw [hi] at hget
      have hk := (Prod.mk.injEq _ _ _ _).mp (Option.some_inj.mp hget)
      rw [hk.1]
    | enqueue k2 hget hg =>
      rw [hi] at hget
      have hk := (Prod.mk.injEq _ _ _ _).mp (Option.some_inj.mp hget)
      rw [← hk.1] at hg
      rw [hguard] at hg
      exact absurd hg (by simp)
    | acquire k2 hget _ =>
      rw [hi] at hget
      exact absurd ((Prod.mk.injEq _ _ _ _).mp (Option.some_inj.mp hget)).2 (by simp)
    | enter k2 hget =>
      rw [hi] at hget
      exact absurd ((Prod.mk.injEq _ _ _ _).mp (Option.some_inj.mp hget)).2 (by simp)
    | finish k2 hget =>
      rw [hi] at hget
      exact absurd ((Prod.mk.injEq _ _ _ _).mp (Option.some_inj.mp hget)).2 (by simp)
    | release k2 hget =>
      rw [hi] at hget
      exact absurd ((Prod.mk.injEq _ _ _ _).mp (Option.some_inj.mp hget)).2 (by simp)
  have hdropped : ({ s with threads := s.threads.set i (k, .dropped) } :
      WState K).threads.get? i = some (k, .dropped) := by
    have hlen : i < s.threads.length := lt_of_get?_eq_some hi
    simpa using List.get?_set_eq_of_lt (k, DLoc.dropped) (l := s.threads) hlen
  refine ⟨honly, WStep.dropStep s k hi hguard, ?_, ?_⟩
  · intro s2 s3 hstep hsteps
    rw [honly s2 hstep] at hsteps
    exact dropped_persists_star hdropped hsteps
  · intro a b ta tb hab ha hb _
    intro hcon
    have hinv := (mutexInv_reach hreach).1 a b ta tb hab ha hb
    exact hinv ⟨by rw [hcon.1]; rfl, by rw [hcon.2]; rfl⟩

/-- C10: the lock of a wrapped function is one shared `threading.Lock`,
not per key, so two calls with DIFFERENT argument tuples are also
mutually exclusive: whenever one thread is running the wrapped body, no
other thread is, whatever its key. -/
theorem c10_lock_shared_across_keys {K : Type} [DecidableEq K] (maxW : Nat) (ks : List K)
    (s : WState K) (hreach : WReach maxW ks s) (i j : Nat) (ki kj : K) (lj : DLoc)
    (hne : i ≠ j) (hi : s.threads.get? i = some (ki, .running))
    (hj : s.threads.get? j = some (kj, lj)) : lj ≠ .running := by
  intro hrun
  have hinv := (mutexInv_reach hreach).1 i j (ki, .running) (kj, lj) hne hi hj
  exact hinv ⟨rfl, by rw [hrun]; rfl⟩

/-- Fixture: two callers with the same key 5; the first has already
passed the guard and is waiting on the lock. -/
def wsBusy : WState Nat :=
  { WInit [5, 5] with
      threads := (WInit [5, 5] : WState Nat).threads.set 0 (5, .waiting),
      wait := upd (WInit [5, 5] : WState Nat).wait 5
        ((WInit [5, 5] : WState Nat).wait 5 + 1) }

theorem wsBusy_reach : WReach 0 [5, 5] wsBusy :=
  Relation.ReflTransGen.single ⟨0, WStep.enqueue (WInit [5, 5]) 5 rfl rfl⟩

/-- Witness: C8 applied in `wsBusy` to the second caller (key 5, guard
counts busy): its only step is the drop. -/
theorem c8_drop_semantics_witness :
    WStep 0 1 wsBusy { wsBusy with threads := wsBusy.threads.set 1 (5, .dropped) } :=
  (c8_drop_semantics [5, 5] wsBusy wsBusy_reach 1 5 rfl (Or.inr (by decide))).2.1

/-- Fixture: caller 0 (key 7) has taken the lock and is running while
caller 1 (key 9) is still at the guard. -/
def wsRun0 : WState Nat :=
  { WInit [7, 9] with
      threads := (WInit [7, 9] : WState Nat).threads.set 0 (7, .waiting),
      wait := upd (WInit [7, 9] : WState Nat).wait 7
        ((WInit [7, 9] : WState Nat).wait 7 + 1) }

def wsRun1 : WState Nat :=
  { wsRun0 with lock := true, threads := wsRun0.threads.set 0 (7, .holding) }

def wsRun2 : WState Nat :=
  { wsRun1 with
      threads := wsRun1.threads.set 0 (7, .running),
      run := upd wsRun1.run 7 (wsRun1.run 7 + 1),
      wait := upd wsRun1.wait 7 (wsRun1.wait 7 - 1) }

theorem wsRun2_reach : WReach 0 [7, 9] wsRun2 :=
  Relation.ReflTransGen.tail
    (Relation.ReflTransGen.tail
      (Relation.ReflTransGen.single ⟨0, WStep.enqueue (WInit [7, 9]) 7 rfl rfl⟩)
      ⟨0, WStep.acquire wsRun0 7 rfl rfl⟩)
    ⟨0, WStep.enter wsRun1 7 rfl⟩

/-- Witness: C10 applied with thread 0 (key 7) running and thread 1
(key 9, a different key) at the guard. -/
theorem c10_lock_shared_across_keys_witness : DLoc.start ≠ DLoc.running :=
  c10_lock_shared_across_keys 0 [7, 9] wsRun2 wsRun2_reach 0 1 7 9 .start
    (by decide) rfl rfl

end GKeep

namespace GKeep

theorem setItem_items (st : LState) (i : Nat) (f : LItem → LItem) :
    (setItem st i f).items = st.items.map (fun x => if x.id == i then f x else x) := rfl

/-- Pointwise arena transformation: ids, sorts, deleted flags survive;
elements other than the current id keep their checked flag and can only
lose their parent link. -/
structure StageRel (curId : Nat) (st st2 : LState) (g : LItem → LItem) : Prop where
  items : st2.items = st.items.map g
  next : st2.nextId = st.nextId
  keep : ∀ x, (g x).id = x.id ∧ (g x).sort = x.sort ∧ (g x).deleted = x.deleted
  other : ∀ x, x.id ≠ curId → (g x).checked = x.checked ∧
    ((g x).parentId = x.parentId ∨ (g x).parentId = none)

theorem StageRel.id_rel (curId : Nat) (st : LState) : StageRel curId st st id := by
  refine ⟨by simp, rfl, by simp, by simp⟩

theorem StageRel.comp {curId : Nat} {st st2 st3 : LState} {g g2 : LItem → LItem}
    (h1 : StageRel curId st st2 g) (h2 : StageRel curId st2 st3 g2) :
    StageRel curId st st3 (g2 ∘ g) := by
  refine ⟨?_, h2.next.trans h1.next, ?_, ?_⟩
  · rw [h2.items, h1.items, List.map_map]
  · intro x
    obtain ⟨k1, k2, k3⟩ := h1.keep x
    obtain ⟨m1, m2, m3⟩ := h2.keep (g x)
    exact ⟨by simp [m1, k1], by simp [m2, k2], by simp [m3, k3]⟩
  · intro x hx
    obtain ⟨c1, p1⟩ := h1.other x hx
    have hgid : (g x).id ≠ curId := by rw [(h1.keep x).1]; exact hx
    obtain ⟨c2, p2⟩ := h2.other (g x) hgid
    refine ⟨by simp [c2, c1], ?_⟩
    rcases p2 with p2 | p2
    · rcases p1 with p1 | p1
      · exact Or.inl (by simp [p2, p1])
      · exact Or.inr (by simp [p2, p1])
    · exact Or.inr (by simpa using p2)

theorem StageRel.of_setItem_text (curId : Nat) (st : LState) (t : Str) :
    StageRel curId st (setItem st curId (fun x => { x with text := t }))
      (fun x => if x.id == curId then { x with text := t } else x) := by
  refine ⟨rfl, rfl, ?_, ?_⟩
  · intro x
    by_cases h : x.id = curId <;> simp [h]
  · intro x hx
    simp [hx]

theorem StageRel.of_setItem_checked (curId : Nat) (st : LState) (c : Bool) :
    StageRel curId st (setItem st curId (fun x => { x with checked := c }))
      (fun x => if x.id == curId then { x with checked := c } else x) := by
  refine ⟨rfl, rfl, ?_, ?_⟩
  · intro x
    by_cases h : x.id = curId <;> simp [h]
  · intro x hx
    simp [hx]

theorem StageRel.of_setItem_parent (curId : Nat) (st : LState) (p : Option Nat) :
    StageRel curId st (setItem st curId (fun x => { x with parentId := p }))
      (fun x => if x.id == curId then { x with parentId := p } else x) := by
  refine ⟨rfl, rfl, ?_, ?_⟩
  · intro x
    by_cases h : x.id = curId <;> simp [h]
  · intro x hx
    simp [hx]

theorem StageRel.of_dedent (curId : Nat) (st : LState) (j : Nat) :
    StageRel curId st (dedentItem st j)
      (fun x => if x.id == j then { x with parentId := none } else x) := by
  refine ⟨rfl, rfl, ?_, ?_⟩
  · intro x
    by_cases h : x.id = j <;> simp [h]
  · intro x _
    by_cases h : x.id = j <;> simp [h]

theorem dedentFold_rel (curId : Nat) (cs : List LItem) (st : LState) :
    ∃ g, StageRel curId st (cs.foldl (fun s c => dedentItem s c.id) st) g ∧
      ∀ x, (g x).checked = x.checked := by
  induction cs generalizing st with
  | nil => exact ⟨id, StageRel.id_rel curId st, by simp⟩
  | cons c rest ih =>
    obtain ⟨g, hg, hc⟩ := ih (dedentItem st c.id)
    refine ⟨g ∘ _, (StageRel.of_dedent curId st c.id).comp hg, ?_⟩
    intro x
    by_cases h : x.id = c.id <;> simp [Function.comp, h, hc]

theorem indentItem_rel (curId : Nat) (st : LState) (pid : Nat) :
    ∃ g, StageRel curId st (indentItem st curId pid) g ∧
      ∀ x, x.id = curId → (g x).parentId = some pid ∧ (g x).checked = x.checked := by
  unfold indentItem
  obtain ⟨g1, hg1, hc1⟩ := dedentFold_rel curId (childrenOf st curId) st
  refine ⟨(fun x => if x.id == curId then { x with parentId := some pid } else x) ∘ g1,
    hg1.comp (StageRel.of_setItem_parent curId _ (some pid)), ?_⟩
  intro x hx
  have hgid : (g1 x).id = x.id := (hg1.keep x).1
  constructor
  · simp [Function.comp, hgid, hx]
  · simp [Function.comp, hgid, hx, hc1]

theorem rawIndent_rel (curId : Nat) (st : LState) (pid : Nat) :
    ∃ g, StageRel curId st (rawIndent st curId pid) g ∧
      ∀ x, x.id = curId → (g x).checked = x.checked ∧
        ((g x).parentId = x.parentId ∨ (g x).parentId = some pid) := by
  unfold rawIndent
  by_cases h : (childrenOf st curId).isEmpty
  · refine ⟨(fun x => if x.id == curId then { x with parentId := some pid } else x), ?_, ?_⟩
    · simp only [h, if_true]
      exact StageRel.of_setItem_parent curId st (some pid)
    · intro x hx
      simp [hx]
  · have hb : (childrenOf st curId).isEmpty = false := by simpa using h
    refine ⟨id, ?_, by simp⟩
    simp only [hb, Bool.false_eq_true, if_false]
    exact StageRel.id_rel curId st

/-- Shape of the mutation stage: a pointwise tame arena update; the
current item ends with the reconciled checked flag, and is either
detached or attached to the tracked parent. -/
theorem stageMutate_shape (st0 : LState) (it : LItem) (li : LineItem)
    (indented checked : Bool) (parentVar : Option Nat) (dirty0 : Bool)
    (hpv : indented = true → parentVar.isSome) :
    ∃ g, StageRel it.id st0 (stageMutate st0 it li indented checked parentVar dirty0).1 g ∧
      (g it).checked = checked ∧
      ((g it).parentId = none ∨
        (indented = true ∧ ∃ pid, parentVar = some pid ∧ (g it).parentId = some pid)) := by
  have base : ∃ g1, StageRel it.id st0
      (if it.text != li.text
        then (setItem st0 it.id (fun x => { x with text := li.text }), true)
        else (st0, dirty0)).1 g1 ∧ (g1 it).checked = it.checked ∧
      (g1 it).parentId = it.parentId ∧ (g1 it).id = it.id := by
    by_cases h : (it.text != li.text) = true
    · rw [if_pos h]
      exact ⟨_, StageRel.of_setItem_text it.id st0 li.text, by simp, by simp, by simp⟩
    · rw [if_neg h]
      exact ⟨id, StageRel.id_rel it.id st0, rfl, rfl, rfl⟩
  obtain ⟨g1, hg1, hck1, hp1, hid1⟩ := base
  set p1 := (if it.text != li.text
      then (setItem st0 it.id (fun x => { x with text := li.text }), true)
      else (st0, dirty0)) with hp1def
  have base2 : ∃ g2, StageRel it.id p1.1
      (if it.checked != checked
        then (setItem p1.1 it.id (fun x => { x with checked := checked }), true)
        else p1).1 g2 ∧ (g2 (g1 it)).checked = checked ∧
      (g2 (g1 it)).parentId = it.parentId ∧ (g2 (g1 it)).id = it.id := by
    by_cases h : (it.checked != checked) = true
    · rw [if_pos h]
      exact ⟨_, StageRel.of_setItem_checked it.id p1.1 checked, by simp [hid1],
        by simp [hid1, hp1], by simp [hid1]⟩
    · have hb2 : (it.checked != checked) = false := by simpa using h
      have hceq : it.checked = checked := by simpa using hb2
      rw [if_neg h]
      exact ⟨id, StageRel.id_rel it.id p1.1, by simp [hck1, hceq], by simp [hp1],
        by simp [hid1]⟩
  obtain ⟨g2, hg2, hck2, hpp2, hid2⟩ := base2
  set p2 := (if it.checked != checked
      then (setItem p1.1 it.id (fun x => { x with checked := checked }), true)
      else p1) with hp2def
  have hcomp := hg1.comp hg2
  simp only [stageMutate]
  rw [← hp1def, ← hp2def]
  by_cases h3 : (it.indented != indented) = true
  · rw [if_pos h3]
    by_cases hi : indented = true
    · rw [if_pos hi]
      have hsome := hpv hi
      rcases hv : parentVar with _ | pid
      · exact absurd hsome (by simp [hv])
      · simp only []
        obtain ⟨g3, hg3, hat⟩ := indentItem_rel it.id p2.1 pid
        refine ⟨g3 ∘ g2 ∘ g1, hcomp.comp hg3, ?_, ?_⟩
        · have hthis := (hat (g2 (g1 it)) hid2).2
          simp only [Function.comp]
          rw [hthis, hck2]
        · right
          exact ⟨hi, pid, rfl, by simp only [Function.comp]; exact (hat (g2 (g1 it)) hid2).1⟩
    · have hib : indented = false := by simpa using hi
      rw [hib]
      simp only [Bool.false_eq_true, if_false]
      refine ⟨(fun x => if x.id == it.id then { x with parentId := none } else x) ∘ g2 ∘ g1,
        hcomp.comp (StageRel.of_dedent it.id p2.1 it.id), ?_, ?_⟩
      · simp only [Function.comp, hid2]
        simp [hck2]
      · left
        simp only [Function.comp, hid2]
        simp
  · rw [if_neg h3]
    have h3eq : it.indented = indented := by
      have hb3 : (it.indented != indented) = false := by simpa using h3
      simpa using hb3
    by_cases hi : indented = true
    · rw [if_pos hi]
      have hsome := hpv hi
      rcases hv : parentVar with _ | pid
      · exact absurd hsome (by simp [hv])
      · simp only []
        by_cases hrel : ((some pid : Option Nat) != it.parentId) = true
        · rw [if_pos hrel]
          obtain ⟨gr, hgr, hrat⟩ := rawIndent_rel it.id (dedentItem p2.1 it.id) pid
          have hdid : ((fun (x : LItem) =>
              if x.id == it.id then { x with parentId := none } else x) (g2 (g1 it))).id
                = it.id := by
            simp [hid2]
          refine ⟨gr ∘ (fun x => if x.id == it.id then { x with parentId := none } else x) ∘ g2 ∘ g1,
            (hcomp.comp (StageRel.of_dedent it.id p2.1 it.id)).comp hgr, ?_, ?_⟩
          · have hthis := (hrat _ hdid).1
            simp only [Function.comp]
            rw [hthis]
            simp [hid2, hck2]
          · have hthis := (hrat _ hdid).2
            simp only [Function.comp]
            rcases hthis with hh | hh
            · left
              rw [hh]
              simp [hid2]
            · right
              exact ⟨hi, pid, rfl, hh⟩
        · have hpeq : it.parentId = some pid := by
            have hbr : ((some pid : Option Nat) != it.parentId) = false := by simpa using hrel
            have hx : (some pid : Option Nat) = it.parentId := by simpa using hbr
            exact hx.symm
          rw [if_neg hrel]
          refine ⟨g2 ∘ g1, hcomp, by simp [Function.comp, hck2], ?_⟩
          right
          exact ⟨hi, pid, rfl, by simp only [Function.comp]; rw [hpp2, hpeq]⟩
    · have hib : indented = false := by simpa using hi
      rw [hib]
      simp only [Bool.false_eq_true, if_false]
      refine ⟨g2 ∘ g1, hcomp, by simp [Function.comp, hck2], ?_⟩
      left
      have hnone : it.parentId = none := by
        have hx : it.indented = false := by rw [h3eq, hib]
        simpa [LItem.indented, Option.isSome_iff_exists] using hx
      simp only [Function.comp]
      rw [hpp2, hnone]

/-! ### Dict and view support lemmas -/

theorem dictIds_nil : dictIds [] = [] := rfl

theorem dictIds_cons (t : Str) (q : List Nat) (rest : ItemDict) :
    dictIds ((t, q) :: rest) = q ++ dictIds rest := rfl

theorem dictPop_cases (m : ItemDict) (t : Str) :
    ((dictPop m t).1 = none ∧ dictIds (dictPop m t).2 = dictIds m) ∨
    (∃ iid pre post, (dictPop m t).1 = some iid ∧ dictIds m = pre ++ iid :: post ∧
      dictIds (dictPop m t).2 = pre ++ post) := by
  induction m with
  | nil => exact Or.inl ⟨rfl, rfl⟩
  | cons e rest ih =>
    obtain ⟨t2, q⟩ := e
    by_cases ht : (t2 == t) = true
    · cases q with
      | nil =>
        left
        refine ⟨by simp [dictPop, ht], ?_⟩
        simp [dictPop, ht, dictIds_cons]
      | cons i q2 =>
        right
        refine ⟨i, [], q2 ++ dictIds rest, by simp [dictPop, ht], by simp [dictIds_cons], ?_⟩
        by_cases hq : q2.isEmpty = true
        · have : q2 = [] := by simpa [List.isEmpty_iff] using hq
          simp [dictPop, ht, hq, this]
        · have hqb : q2.isEmpty = false := by simpa using hq
          simp [dictPop, ht, hqb, dictIds_cons]
    · have htb : (t2 == t) = false := by simpa using ht
      rcases ih with ⟨h1, h2⟩ | ⟨iid, pre, post, h1, h2, h3⟩
      · left
        refine ⟨by simp [dictPop, htb, h1], ?_⟩
        simp only [dictPop, htb, Bool.false_eq_true, if_false]
        rw [dictIds_cons, dictIds_cons, h2]
      · right
        refine ⟨iid, q ++ pre, post, by simp [dictPop, htb, h1], ?_, ?_⟩
        · rw [dictIds_cons, h2]
          simp
        · simp only [dictPop, htb, Bool.false_eq_true, if_false]
          rw [dictIds_cons, h3]
          simp

theorem dictIds_dictAdd (m : ItemDict) (t : Str) (i j : Nat) :
    j ∈ dictIds (dictAdd m t i) ↔ j ∈ dictIds m ∨ j = i := by
  induction m with
  | nil => simp [dictAdd, dictIds_cons, dictIds_nil]
  | cons e rest ih =>
    obtain ⟨t2, q⟩ := e
    by_cases ht : (t2 == t) = true
    · simp only [dictAdd, ht, if_true, dictIds_cons, List.mem_append, List.mem_singleton]
      tauto
    · have htb : (t2 == t) = false := by simpa using ht
      simp only [dictAdd, htb, Bool.false_eq_true, if_false, dictIds_cons,
        List.mem_append, ih]
      tauto

theorem dictIds_buildDict_aux (its : List LItem) (m0 : ItemDict) (j : Nat) :
    j ∈ dictIds (its.foldl (fun m it => dictAdd m it.text it.id) m0) ↔
      j ∈ dictIds m0 ∨ j ∈ its.map LItem.id := by
  induction its generalizing m0 with
  | nil => simp
  | cons it rest ih =>
    simp only [List.foldl_cons, ih, dictIds_dictAdd, List.map_cons, List.mem_cons]
    tauto

theorem dictIds_buildDict (its : List LItem) (j : Nat) :
    j ∈ dictIds (buildDict its) ↔ j ∈ its.map LItem.id := by
  unfold buildDict
  rw [dictIds_buildDict_aux]
  simp [dictIds_nil]

theorem insertByGT_perm (gt : α → α → Bool) (x : α) (l : List α) :
    List.Perm (insertByGT gt x l) (x :: l) := by
  induction l with
  | nil => exact List.Perm.refl _
  | cons y ys ih =>
    by_cases h : gt y x
    · simp only [insertByGT, h, if_true]
      exact List.Perm.trans (ih.cons y) (List.Perm.swap x y ys)
    · have hb : gt y x = false := by simpa using h
      simp [insertByGT, hb]

theorem sortByGT_perm (gt : α → α → Bool) (l : List α) :
    List.Perm (sortByGT gt l) l := by
  induction l with
  | nil => exact List.Perm.refl _
  | cons x xs ih =>
    exact List.Perm.trans (insertByGT_perm gt x (sortByGT gt xs)) (ih.cons x)

theorem itemsView_perm (st : LState) :
    List.Perm (itemsView st) (st.items.filter (fun x => !x.deleted)) :=
  sortByGT_perm _ _

theorem eq_of_same_id (l : List LItem) (hnd : (l.map LItem.id).Nodup)
    {x y : LItem} (hx : x ∈ l) (hy : y ∈ l) (h : x.id = y.id) : x = y := by
  induction l with
  | nil => exact absurd hx (List.not_mem_nil x)
  | cons a rest ih =>
    simp only [List.map_cons, List.nodup_cons] at hnd
    rcases List.mem_cons.mp hx with hx1 | hx1 <;> rcases List.mem_cons.mp hy with hy1 | hy1
    · rw [hx1, hy1]
    · subst hx1
      exact absurd (by rw [h]; exact List.mem_map_of_mem LItem.id hy1) hnd.1
    · subst hy1
      exact absurd (by rw [← h]; exact List.mem_map_of_mem LItem.id hx1) hnd.1
    · exact ih hnd.2 hx1 hy1

theorem findItem_eq (st : LState) (hnd : (st.items.map LItem.id).Nodup)
    {x : LItem} (hx : x ∈ st.items) : findItem st x.id = some x := by
  unfold findItem
  have haux : ∀ l : List LItem, (l.map LItem.id).Nodup → x ∈ l →
      l.find? (fun z => z.id == x.id) = some x := by
    intro l
    induction l with
    | nil => intro _ hmem; exact absurd hmem (List.not_mem_nil x)
    | cons a rest ih =>
      intro hnd2 hmem
      simp only [List.map_cons, List.nodup_cons] at hnd2
      rcases List.mem_cons.mp hmem with h1 | h1
      · subst h1
        simp [List.find?]
      · have hne : (a.id == x.id) = false := by
          simp only [beq_eq_false_iff_ne, ne_eq]
          intro hc
          exact hnd2.1 (by rw [hc]; exact List.mem_map_of_mem LItem.id h1)
        simp only [List.find?, hne]
        exact ih hnd2.2 h1
  exact haux st.items hnd hx

theorem map_id_of_keep (g : LItem → LItem) (hk : ∀ x, (g x).id = x.id) (l : List LItem) :
    (l.map g).map LItem.id = l.map LItem.id := by
  induction l with
  | nil => rfl
  | cons a rest ih => simp [hk, ih]

theorem dictPop_sub (m : ItemDict) (t : Str) :
    ∀ j ∈ dictIds (dictPop m t).2, j ∈ dictIds m := by
  intro j hj
  rcases dictPop_cases m t with ⟨_, h2⟩ | ⟨jid, pre, post, _, h2, h3⟩
  · rw [h2] at hj
    exact hj
  · rw [h3] at hj
    rw [h2]
    rcases List.mem_append.mp hj with hj | hj
    · exact List.mem_append_left _ hj
    · exact List.mem_append_right _ (List.mem_cons_of_mem _ hj)

theorem dictPop_nodup (m : ItemDict) (t : Str) (h : (dictIds m).Nodup) :
    (dictIds (dictPop m t).2).Nodup := by
  rcases dictPop_cases m t with ⟨_, h2⟩ | ⟨jid, pre, post, _, h2, h3⟩
  · rw [h2]
    exact h
  · rw [h3]
    rw [h2, List.nodup_append] at h
    rw [List.nodup_append]
    refine ⟨h.1, h.2.1.of_cons, ?_⟩
    intro a ha hb
    exact h.2.2 ha (List.mem_cons_of_mem _ hb)

/-! ### The reconciliation-walk invariant -/

/-- Invariant carried through the `_parse_list_body` walk.  `main` is
the child-coercion property of C9; the rest is the bookkeeping that
makes it inductive: ids are unique and below the fresh counter, dict
entries exist and are not yet emitted, emitted items exist, the tracked
parent is emitted, every live item is either emitted or still in the
dict, and emitted children point at emitted parents. -/
structure WalkInv (w : WalkSt) : Prop where
  nodup : (w.st.items.map LItem.id).Nodup
  bound : ∀ x ∈ w.st.items, x.id < w.st.nextId
  dictNodup : (dictIds w.dict).Nodup
  dictMem : ∀ iid ∈ dictIds w.dict, ∃ x ∈ w.st.items, x.id = iid
  dictNew : ∀ iid ∈ dictIds w.dict, iid ∉ w.newItems
  newMem : ∀ iid ∈ w.newItems, ∃ x ∈ w.st.items, x.id = iid
  parentNew : ∀ pid, w.parent = some pid → pid ∈ w.newItems
  cover : ∀ x ∈ w.st.items, x.deleted = false → x.id ∈ w.newItems ∨ x.id ∈ dictIds w.dict
  childLink : ∀ x ∈ w.st.items, x.id ∈ w.newItems → ∀ pid, x.parentId = some pid →
    pid ∈ w.newItems
  main : ∀ x ∈ w.st.items, x.id ∈ w.newItems → ∀ pid, x.parentId = some pid →
    ∀ p ∈ w.st.items, p.id = pid → p.checked = true → x.checked = true

theorem walkInv_step (w : WalkSt) (li : LineItem) (hinv : WalkInv w) :
    WalkInv (walkStep w li) := by
  classical
  obtain ⟨hnodup, hbound, hdnodup, hdmem, hdnew, hnmem, hpnew, hcover, hclink, hmain⟩ := hinv
  -- characterize the pop stage
  have hPop : ∃ (st0 : LState) (it : LItem) (d : Bool),
      stagePop w li = (st0, it, d, (dictPop w.dict li.text).2) ∧
      (st0.items.map LItem.id).Nodup ∧
      (∀ x ∈ st0.items, x.id < st0.nextId) ∧
      it ∈ st0.items ∧
      (∀ x ∈ w.st.items, x ∈ st0.items) ∧
      (∀ x ∈ st0.items, x ∈ w.st.items ∨ x = it) ∧
      it.id ∉ w.newItems ∧
      it.id ∉ dictIds (dictPop w.dict li.text).2 ∧
      (it.parentId = none ∨ it ∈ w.st.items) ∧
      (∀ j ∈ dictIds w.dict, j = it.id ∨ j ∈ dictIds (dictPop w.dict li.text).2) := by
    rcases hpc : (dictPop w.dict li.text).1 with _ | iid
    · -- creation branch
      set srt := (match w.lastSort with
        | some ls => ls - 1000000
        | none => (0 : Int)) with hsrt
      refine ⟨(addItem w.st li.text li.checked srt).1,
        (addItem w.st li.text li.checked srt).2, true, ?_, ?_, ?_, ?_, ?_, ?_, ?_, ?_, ?_, ?_⟩
      · simp [stagePop, hpc, addItem]
      · simp only [addItem, List.map_append]
        rw [List.nodup_append]
        refine ⟨hnodup, by simp, ?_⟩
        intro a ha
        simp only [List.map_cons, List.map_nil, List.mem_singleton]
        intro hc
        obtain ⟨x, hx, hxid⟩ := List.mem_map.mp ha
        subst hc
        exact absurd (hxid ▸ hbound x hx) (by simp [hxid])
      · intro x hx
        simp only [addItem] at hx ⊢
        rcases List.mem_append.mp hx with h | h
        · exact Nat.lt_succ_of_lt (hbound x h)
        · simp only [List.mem_singleton] at h
          rw [h]
          exact Nat.lt_succ_self _
      · simp [addItem]
      · intro x hx
        simp [addItem, hx]
      · intro x hx
        simp only [addItem, List.mem_append, List.mem_singleton] at hx
        rcases hx with h | h
        · exact Or.inl h
        · exact Or.inr (by simp [addItem, h])
      · intro hc
        obtain ⟨x, hx, hxid⟩ := hnmem _ hc
        exact absurd (hxid ▸ hbound x hx) (by simp [addItem, hxid])
      · intro hc
        obtain ⟨x, hx, hxid⟩ := hdmem _ (by
          rcases dictPop_cases w.dict li.text with ⟨_, h2⟩ | ⟨jid, pre, post, _, h2, h3⟩
          · rw [← h2]; exact hc
          · rw [h2]
            rw [h3] at hc
            simp only [List.mem_append] at hc ⊢
            rcases hc with hc | hc
            · exact Or.inl hc
            · exact Or.inr (List.mem_cons_of_mem _ hc))
        exact absurd (hxid ▸ hbound x hx) (by simp [addItem, hxid])
      · left
        simp [addItem]
      · intro j hj
        rcases dictPop_cases w.dict li.text with ⟨_, h2⟩ | ⟨jid, _, _, h1, _, _⟩
        · right
          rw [h2]
          exact hj
        · exact absurd (h1.symm.trans hpc) (by simp)
    · -- pop branch
      rcases dictPop_cases w.dict li.text with ⟨h1, _⟩ | ⟨jid, pre, post, h1, h2, h3⟩
      · exact absurd (h1.symm.trans hpc) (by simp)
      · have hjid : iid = jid := by
          have hh := hpc.symm.trans h1
          simpa using hh
        have hidin : jid ∈ dictIds w.dict := by
          rw [h2]
          simp
        obtain ⟨x, hx, hxid⟩ := hdmem _ hidin
        have hfind : findItem w.st iid = some x := by
          rw [hjid, ← hxid]
          exact findItem_eq w.st hnodup hx
        refine ⟨w.st, x, w.dirty, ?_, hnodup, hbound, hx, fun y hy => hy,
          fun y hy => Or.inl hy, ?_, ?_, Or.inr hx, ?_⟩
        · simp [stagePop, hpc, hfind]
        · rw [hxid]
          exact hdnew _ hidin
        · rw [hxid, h3]
          have hnd2 : (pre ++ jid :: post).Nodup := by
            rw [← h2]
            exact hdnodup
          rw [List.nodup_append] at hnd2
          intro hc
          rcases List.mem_append.mp hc with hc | hc
          · exact hnd2.2.2 hc (by simp)
          · have hx3 := hnd2.2.1
            simp only [List.nodup_cons] at hx3
            exact hx3.1 hc
        · intro j hj
          rw [h2] at hj
          rcases List.mem_append.mp hj with hj | hj
          · right
            rw [h3]
            exact List.mem_append_left _ hj
          · rcases List.mem_cons.mp hj with hj | hj
            · left
              exact hj.trans hxid.symm
            · right
              rw [h3]
              exact List.mem_append_right _ hj
  obtain ⟨st0, it, d, hsp, h0nodup, h0bound, hitmem, hsub, hsup, hitnew, hitdict, hitold, hdsplit⟩ := hPop
  -- name the walkStep ingredients
  set indented := li.indented && w.parent.isSome with hind
  have hpv : indented = true → w.parent.isSome = true := by
    intro h
    rw [hind] at h
    exact (Bool.and_eq_true _ _).mp h |>.2
  set checkedV :=
    (if indented then
      li.checked || (match w.parent with
        | some pid => ((findItem st0 pid).map (fun p => p.checked)).getD false
        | none => false)
    else li.checked) with hckv
  obtain ⟨g, hg, hgck, hgp⟩ := stageMutate_shape st0 it li indented checkedV w.parent d hpv
  -- the post step state in terms of the pieces
  have hpost : walkStep w li = {
      st := (stageMutate st0 it li indented checkedV w.parent d).1
      dict := (dictPop w.dict li.text).2
      parent := if indented then w.parent else some it.id
      newItems := w.newItems ++ [it.id]
      lastSort := some it.sort
      resort := w.resort || (match w.lastSort with
        | some ls => decide (ls ≤ it.sort) | none => false)
      dirty := (stageMutate st0 it li indented checkedV w.parent d).2 } := by
    unfold walkStep
    rw [hsp]
  have hmap : ∀ y ∈ (stageMutate st0 it li indented checkedV w.parent d).1.items,
      ∃ x ∈ st0.items, y = g x := by
    intro y hy
    rw [hg.items] at hy
    obtain ⟨x, hx, hxy⟩ := List.mem_map.mp hy
    exact ⟨x, hx, hxy.symm⟩
  have hmem2 : ∀ x ∈ st0.items,
      g x ∈ (stageMutate st0 it li indented checkedV w.parent d).1.items := by
    intro x hx
    rw [hg.items]
    exact List.mem_map_of_mem g hx
  rw [hpost]
  refine ⟨?_, ?_, ?_, ?_, ?_, ?_, ?_, ?_, ?_, ?_⟩ <;> dsimp only
  · rw [hg.items, map_id_of_keep g (fun x => (hg.keep x).1)]
    exact h0nodup
  · intro y hy
    obtain ⟨x, hx, hyx⟩ := hmap y hy
    rw [hyx, (hg.keep x).1, hg.next]
    exact h0bound x hx
  · exact dictPop_nodup w.dict li.text hdnodup
  · intro j hj
    obtain ⟨x, hx, hxid⟩ := hdmem j (dictPop_sub w.dict li.text j hj)
    exact ⟨g x, hmem2 x (hsub x hx), by rw [(hg.keep x).1]; exact hxid⟩
  · intro j hj
    simp only [List.mem_append, List.mem_singleton]
    rintro (hc | hc)
    · exact hdnew j (dictPop_sub w.dict li.text j hj) hc
    · exact hitdict (hc ▸ hj)
  · intro j hj
    rcases List.mem_append.mp hj with hc | hc
    · obtain ⟨x, hx, hxid⟩ := hnmem j hc
      exact ⟨g x, hmem2 x (hsub x hx), by rw [(hg.keep x).1]; exact hxid⟩
    · simp only [List.mem_singleton] at hc
      exact ⟨g it, hmem2 it hitmem, by rw [(hg.keep it).1, hc]⟩
  · intro pid hp
    by_cases hi : indented = true
    · rw [if_pos hi] at hp
      exact List.mem_append_left _ (hpnew pid hp)
    · rw [if_neg hi] at hp
      simp only [Option.some_inj] at hp
      rw [← hp]
      simp
  · intro y hy hydel
    obtain ⟨x, hx, hyx⟩ := hmap y hy
    have hxdel : x.deleted = false := by
      rw [hyx, (hg.keep x).2.2] at hydel
      exact hydel
    rw [hyx, (hg.keep x).1]
    rcases hsup x hx with hxw | hxit
    · rcases hcover x hxw hxdel with hc | hc
      · exact Or.inl (List.mem_append_left _ hc)
      · rcases hdsplit x.id hc with hc2 | hc2
        · exact Or.inl (by rw [hc2]; simp)
        · exact Or.inr hc2
    · rw [hxit]
      exact Or.inl (by simp)
  · intro y hy hynew pid hyp
    obtain ⟨x, hx, hyx⟩ := hmap y hy
    by_cases hxi : x.id = it.id
    · have hxit : x = it := eq_of_same_id st0.items h0nodup hx hitmem hxi
      rw [hyx, hxit] at hyp
      rcases hgp with hnone | ⟨_, pid2, hwp, hgpar⟩
      · rw [hnone] at hyp
        exact absurd hyp (by simp)
      · rw [hgpar] at hyp
        simp only [Option.some_inj] at hyp
        rw [← hyp]
        exact List.mem_append_left _ (hpnew pid2 hwp)
    · obtain ⟨_, hpar⟩ := hg.other x hxi
      rw [hyx] at hyp
      rcases hpar with hpar | hpar
      · rw [hpar] at hyp
        have hxw : x ∈ w.st.items := by
          rcases hsup x hx with h | h
          · exact h
          · exact absurd (by rw [h] : x.id = it.id) hxi
        have hxnew : x.id ∈ w.newItems := by
          rw [hyx, (hg.keep x).1] at hynew
          rcases List.mem_append.mp hynew with h | h
          · exact h
          · exact absurd (by simpa using h) hxi
        exact List.mem_append_left _ (hclink x hxw hxnew pid hyp)
      · rw [hpar] at hyp
        exact absurd hyp (by simp)
  · intro y hy hynew pid hyp p hp hpid hpck
    obtain ⟨x, hx, hyx⟩ := hmap y hy
    obtain ⟨q, hq, hpq⟩ := hmap p hp
    have hqid : q.id = pid := by
      rw [hpq, (hg.keep q).1] at hpid
      exact hpid
    by_cases hxi : x.id = it.id
    · have hxit : x = it := eq_of_same_id st0.items h0nodup hx hitmem hxi
      rw [hyx, hxit] at hyp ⊢
      rcases hgp with hnone | ⟨hind1, pid2, hwp, hgpar⟩
      · rw [hnone] at hyp
        exact absurd hyp (by simp)
      · rw [hgpar] at hyp
        simp only [Option.some_inj] at hyp
        have hpid2new : pid2 ∈ w.newItems := hpnew pid2 hwp
        have hqne : q.id ≠ it.id := by
          rw [hqid, ← hyp]
          intro hc
          exact hitnew (hc ▸ hpid2new)
        have hqck : q.checked = true := by
          have hoq := (hg.other q hqne).1
          rw [hpq, hoq] at hpck
          exact hpck
        have hfq : findItem st0 pid2 = some q := by
          rw [hyp, ← hqid]
          exact findItem_eq st0 h0nodup hq
        rw [hgck, hckv, if_pos hind1, hwp]
        simp [hfq, hqck]
    · obtain ⟨hckeq, hpar⟩ := hg.other x hxi
      rw [hyx] at hyp ⊢
      rw [hckeq]
      rcases hpar with hpar | hpar
      · rw [hpar] at hyp
        have hxw : x ∈ w.st.items := by
          rcases hsup x hx with h | h
          · exact h
          · exact absurd (by rw [h] : x.id = it.id) hxi
        have hxnew : x.id ∈ w.newItems := by
          rw [hyx, (hg.keep x).1] at hynew
          rcases List.mem_append.mp hynew with h | h
          · exact h
          · exact absurd (by simpa using h) hxi
        have hpne : pid ≠ it.id := by
          intro hc
          exact hitnew (hc ▸ hclink x hxw hxnew pid hyp)
        have hqne : q.id ≠ it.id := by
          rw [hqid]
          exact hpne
        have hqck : q.checked = true := by
          have hoq := (hg.other q hqne).1
          rw [hpq, hoq] at hpck
          exact hpck
        have hqw : q ∈ w.st.items := by
          rcases hsup q hq with h | h
          · exact h
          · exact absurd (by rw [h] : q.id = it.id) hqne
        exact hmain x hxw hxnew pid hyp q hqw hqid hqck
      · rw [hpar] at hyp
        exact absurd hyp (by simp)

/-! ### From the walk invariant to the full reconciliation -/

theorem dictIds_dictAdd_perm (m : ItemDict) (t : Str) (i : Nat) :
    List.Perm (dictIds (dictAdd m t i)) (dictIds m ++ [i]) := by
  induction m with
  | nil => simp [dictAdd, dictIds_cons, dictIds_nil]
  | cons e rest ih =>
    obtain ⟨t2, q⟩ := e
    by_cases ht : (t2 == t) = true
    · simp only [dictAdd, ht, if_true, dictIds_cons]
      have h1 : (q ++ [i]) ++ dictIds rest = q ++ ([i] ++ dictIds rest) := by
        rw [List.append_assoc]
      have h2 : (q ++ dictIds rest) ++ [i] = q ++ (dictIds rest ++ [i]) := by
        rw [List.append_assoc]
      rw [h1, h2]
      exact List.Perm.append_left q List.perm_append_comm
    · have ht2 : (t2 == t) = false := by simpa using ht
      simp only [dictAdd, ht2, Bool.false_eq_true, if_false, dictIds_cons]
      have h2 : (q ++ dictIds rest) ++ [i] = q ++ (dictIds rest ++ [i]) := by
        rw [List.append_assoc]
      rw [h2]
      exact List.Perm.append_left q ih

theorem dictIds_buildDict_perm_aux (its : List LItem) (m0 : ItemDict) :
    List.Perm (dictIds (its.foldl (fun m it => dictAdd m it.text it.id) m0))
      (dictIds m0 ++ its.map LItem.id) := by
  induction its generalizing m0 with
  | nil => simp
  | cons it rest ih =>
    simp only [List.foldl_cons, List.map_cons]
    refine (ih (dictAdd m0 it.text it.id)).trans ?_
    have h2 := (dictIds_dictAdd_perm m0 it.text it.id).append_right (rest.map LItem.id)
    have h4 : (dictIds m0 ++ [it.id]) ++ rest.map LItem.id
        = dictIds m0 ++ it.id :: rest.map LItem.id := by
      rw [List.append_assoc]
      rfl
    rw [← h4]
    exact h2

theorem buildDict_perm (its : List LItem) :
    List.Perm (dictIds (buildDict its)) (its.map LItem.id) := by
  have h := dictIds_buildDict_perm_aux its []
  simpa [dictIds_nil] using h

theorem walkInv_init (st0 : LState) (hnd : (st0.items.map LItem.id).Nodup)
    (hb : ∀ x ∈ st0.items, x.id < st0.nextId) :
    WalkInv ⟨st0, buildDict (itemsView st0), none, [], none, false, false⟩ := by
  have hs : ((st0.items.filter (fun x => !x.deleted)).map LItem.id).Sublist
      (st0.items.map LItem.id) := (List.filter_sublist _).map _
  have hfilter : ((st0.items.filter (fun x => !x.deleted)).map LItem.id).Nodup :=
    hnd.sublist hs
  have hvnd : ((itemsView st0).map LItem.id).Nodup :=
    (((itemsView_perm st0).map LItem.id).nodup_iff).mpr hfilter
  refine ⟨hnd, hb, ?_, ?_, ?_, ?_, ?_, ?_, ?_, ?_⟩ <;> dsimp only
  · exact (buildDict_perm (itemsView st0)).nodup_iff.mpr hvnd
  · intro j hj
    rw [dictIds_buildDict] at hj
    obtain ⟨x, hxv, hxid⟩ := List.mem_map.mp hj
    have hx2 : x ∈ st0.items.filter (fun z => !z.deleted) :=
      ((itemsView_perm st0).mem_iff).mp hxv
    exact ⟨x, (List.mem_filter.mp hx2).1, hxid⟩
  · intro j _
    exact List.not_mem_nil j
  · intro j hj
    exact absurd hj (List.not_mem_nil j)
  · intro pid hp
    exact absurd hp (by simp)
  · intro x hx hdel
    right
    rw [dictIds_buildDict]
    have hmem : x ∈ itemsView st0 :=
      ((itemsView_perm st0).mem_iff).mpr (List.mem_filter.mpr ⟨hx, by simp [hdel]⟩)
    exact List.mem_map_of_mem LItem.id hmem
  · intro x _ hx
    exact absurd hx (List.not_mem_nil x.id)
  · intro x _ hx
    exact absurd hx (List.not_mem_nil x.id)

theorem walkInv_fold (ls : List Str) (w : WalkSt) (hinv : WalkInv w) :
    WalkInv (ls.foldl
      (fun w line => match classifyLine line with
        | some li => walkStep w li
        | none => w) w) := by
  induction ls generalizing w with
  | nil => exact hinv
  | cons l rest ih =>
    simp only [List.foldl_cons]
    rcases h : classifyLine l with _ | li
    · exact ih w hinv
    · exact ih _ (walkInv_step w li hinv)

/-- The walk stage of `_parse_list_body` in isolation. -/
def walkAll (lines : List Str) (st0 : LState) (start : Nat) : WalkSt :=
  (lines.drop start).foldl
    (fun w line => match classifyLine line with
      | some li => walkStep w li
      | none => w)
    ⟨st0, buildDict (itemsView st0), none, [], none, false, false⟩

theorem pl_assemble (w : WalkSt) :
    ((if w.resort then ((resortPass w.st w.newItems).1, w.dirty || (resortPass w.st w.newItems).2)
      else (w.st, w.dirty)) : LState × Bool).1 =
    if w.resort then (resortPass w.st w.newItems).1 else w.st := by
  by_cases hr : w.resort = true <;> simp [hr]

theorem parseListBody_fst (lines : List Str) (st0 : LState) (start : Nat) :
    (parseListBody lines st0 start).1 =
      deletePass (if (walkAll lines st0 start).resort
        then (resortPass (walkAll lines st0 start).st (walkAll lines st0 start).newItems).1
        else (walkAll lines st0 start).st)
        (dictIds (walkAll lines st0 start).dict) := by
  have h := pl_assemble (walkAll lines st0 start)
  calc (parseListBody lines st0 start).1
      = deletePass ((if (walkAll lines st0 start).resort
          then ((resortPass (walkAll lines st0 start).st (walkAll lines st0 start).newItems).1,
            (walkAll lines st0 start).dirty ||
              (resortPass (walkAll lines st0 start).st (walkAll lines st0 start).newItems).2)
          else ((walkAll lines st0 start).st, (walkAll lines st0 start).dirty)).1)
        (dictIds (walkAll lines st0 start).dict) := rfl
    _ = _ := by rw [h]

theorem resortStep_items (acc : LState × Int × Bool) (i : Nat) :
    (resortStep acc i).1 = acc.1 ∨
    (resortStep acc i).1 = setItem acc.1 i (fun x => { x with sort := acc.2.1 }) := by
  unfold resortStep
  rcases hf : findItem acc.1 i with _ | it
  · left
    simp [hf]
  · by_cases hs : (it.sort != acc.2.1) = true
    · right
      simp [hf, hs]
    · left
      simp [hf, hs]

theorem resortFold_shape (ids : List Nat) (acc : LState × Int × Bool) :
    ∃ g, (ids.foldl resortStep acc).1.items = acc.1.items.map g ∧
      ∀ x, (g x).id = x.id ∧ (g x).checked = x.checked ∧ (g x).parentId = x.parentId ∧
        (g x).deleted = x.deleted := by
  induction ids generalizing acc with
  | nil => exact ⟨id, by simp, by simp⟩
  | cons i rest ih =>
    obtain ⟨g, hg, hk⟩ := ih (resortStep acc i)
    rcases resortStep_items acc i with h | h
    · refine ⟨g, ?_, hk⟩
      rw [List.foldl_cons, hg, h]
    · refine ⟨g ∘ (fun x => if x.id == i then { x with sort := acc.2.1 } else x), ?_, ?_⟩
      · rw [List.foldl_cons, hg, h, setItem_items, List.map_map]
      · intro x
        by_cases hx : x.id = i <;> simp [Function.comp, hx, hk]

theorem deletePass_shape (ids : List Nat) (st : LState) :
    ∃ g, (deletePass st ids).items = st.items.map g ∧
      (∀ x, (g x).id = x.id ∧ (g x).checked = x.checked ∧ (g x).parentId = x.parentId) ∧
      (∀ x, x.id ∈ ids → (g x).deleted = true) ∧
      (∀ x, x.id ∉ ids → (g x).deleted = x.deleted) := by
  induction ids generalizing st with
  | nil => exact ⟨id, by simp [deletePass], by simp, by simp, by simp⟩
  | cons i rest ih =>
    obtain ⟨g, hg, hk, hdel, hkeep⟩ := ih (setItem st i (fun x => { x with deleted := true }))
    refine ⟨g ∘ (fun x => if x.id == i then { x with deleted := true } else x), ?_, ?_, ?_, ?_⟩
    · simp only [deletePass, List.foldl_cons] at hg ⊢
      rw [hg, setItem_items, List.map_map]
    · intro x
      by_cases hx : x.id = i <;> simp [Function.comp, hx, hk]
    · intro x hx
      simp only [Function.comp_apply]
      by_cases hxi : x.id = i
      · rw [if_pos (by simpa using hxi)]
        by_cases hxr : x.id ∈ rest
        · exact hdel _ (by simpa using hxr)
        · rw [hkeep _ (by simpa using hxr)]
      · rw [if_neg (by simpa using hxi)]
        have hxr : x.id ∈ rest := by
          rcases List.mem_cons.mp hx with h | h
          · exact absurd h hxi
          · exact h
        exact hdel _ hxr
    · intro x hx
      simp only [Function.comp_apply]
      have hxi : x.id ≠ i := fun hc => hx (hc ▸ List.mem_cons_self i rest)
      have hxr : x.id ∉ rest := fun hc => hx (List.mem_cons_of_mem i hc)
      rw [if_neg (by simpa using hxi)]
      exact hkeep _ hxr

/-- A checked parent with an unchecked child, reconciled against lines
where the child stays unchecked. -/
def c9st : LState :=
  ⟨[⟨1, chars "parent", true, none, 10, false⟩, ⟨2, chars "child", false, some 1, 5, false⟩], 3⟩

def c9lines : List Str := [chars "[x] parent", chars "    [ ] child"]

/-- C9: child checked-state coercion.  After `_parse_list_body`
reconciles a checklist (over any well-formed arena: distinct item ids
below the fresh-id counter), no surviving item is left unchecked under
a checked parent: every non-deleted item whose parent link points at a
checked item is itself checked, even when its file line's checkbox
marker was `[ ]`. -/
theorem c9_child_checked_coercion (lines : List Str) (st0 : LState) (start : Nat)
    (hnd : (st0.items.map LItem.id).Nodup)
    (hb : ∀ x ∈ st0.items, x.id < st0.nextId) :
    ∀ x ∈ (parseListBody lines st0 start).1.items, x.deleted = false →
      ∀ pid, x.parentId = some pid →
        ∀ p ∈ (parseListBody lines st0 start).1.items, p.id = pid →
          p.checked = true → x.checked = true := by
  classical
  intro x hx hxdel pid hxp p hp hpid hpck
  have hinv : WalkInv (walkAll lines st0 start) := by
    unfold walkAll
    exact walkInv_fold _ _ (walkInv_init st0 hnd hb)
  set w := walkAll lines st0 start with hwdef
  obtain ⟨_, _, _, _, _, _, _, hcover2, _, hmain2⟩ := hinv
  set stMid := (if w.resort then (resortPass w.st w.newItems).1 else w.st) with hmid
  have hmidshape : ∃ g, stMid.items = w.st.items.map g ∧
      ∀ y, (g y).id = y.id ∧ (g y).checked = y.checked ∧ (g y).parentId = y.parentId ∧
        (g y).deleted = y.deleted := by
    by_cases hr : w.resort = true
    · rw [hmid, if_pos hr]
      exact resortFold_shape w.newItems (w.st, 0, false)
    · rw [hmid, if_neg hr]
      exact ⟨id, by simp, by simp⟩
  obtain ⟨g1, hg1, hk1⟩ := hmidshape
  obtain ⟨g2, hg2, hk2, hdel2, hkeep2⟩ := deletePass_shape (dictIds w.dict) stMid
  have hfin : (parseListBody lines st0 start).1.items = w.st.items.map (g2 ∘ g1) := by
    rw [parseListBody_fst, ← hwdef, ← hmid, hg2, hg1, List.map_map]
  rw [hfin] at hx hp
  obtain ⟨x0, hx0, hxeq⟩ := List.mem_map.mp hx
  obtain ⟨p0, hp0, hpeq⟩ := List.mem_map.mp hp
  simp only [Function.comp_apply] at hxeq hpeq
  -- transported facts about x0
  have hxid : x.id = x0.id := by
    rw [← hxeq, (hk2 (g1 x0)).1, (hk1 x0).1]
  have hxck : x.checked = x0.checked := by
    rw [← hxeq, (hk2 (g1 x0)).2.1, (hk1 x0).2.1]
  have hxpar : x0.parentId = some pid := by
    rw [← (hk1 x0).2.2.1, ← (hk2 (g1 x0)).2.2]
    rw [← hxeq] at hxp
    exact hxp
  have hxleft : x0.id ∉ dictIds w.dict := by
    intro hc
    have hd := hdel2 (g1 x0) (by rw [(hk1 x0).1]; exact hc)
    rw [hxeq] at hd
    rw [hd] at hxdel
    exact absurd hxdel (by simp)
  have hx0del : x0.deleted = false := by
    have hkp := hkeep2 (g1 x0) (by rw [(hk1 x0).1]; exact hxleft)
    rw [hxeq] at hkp
    rw [hkp, (hk1 x0).2.2.2] at hxdel
    exact hxdel
  have hx0new : x0.id ∈ w.newItems := by
    rcases hcover2 x0 hx0 hx0del with h | h
    · exact h
    · exact absurd h hxleft
  -- transported facts about p0
  have hp0id : p0.id = pid := by
    rw [← (hk1 p0).1, ← (hk2 (g1 p0)).1, hpeq]
    exact hpid
  have hp0ck : p0.checked = true := by
    rw [← (hk1 p0).2.1, ← (hk2 (g1 p0)).2.1, hpeq]
    exact hpck
  rw [hxck]
  exact hmain2 x0 hx0 hx0new pid hxpar p0 hp0 hp0id hp0ck

theorem c9_child_checked_coercion_witness :
    ((c9st.items.map LItem.id).Nodup ∧ (∀ x ∈ c9st.items, x.id < c9st.nextId)) ∧
    (∀ x ∈ (parseListBody c9lines c9st 0).1.items, x.deleted = false →
      ∀ pid, x.parentId = some pid →
        ∀ p ∈ (parseListBody c9lines c9st 0).1.items, p.id = pid →
          p.checked = true → x.checked = true) :=
  ⟨⟨by decide, by decide⟩,
    c9_child_checked_coercion c9lines c9st 0 (by decide) (by decide)⟩

/-! ## C4: start probes without committing -/

/-- C4: for every call to `start` with a cached snapshot, the note
graph handed back is exactly the restored snapshot and the protected
list is the probe characterization. -/
theorem c4_probe_without_commit (cfg : MConfig) (api snap : Api) (fs : FS)
    (h : cfg.state = MState.Uninitialized) :
    startFS cfg api fs (some snap) = (snap, probeTouched snap cfg fs, true) := by
  simp [startFS, h, findFilesWithChangesFull, probeTouched]

def c4cfg : MConfig := ⟨some (chars "d"), false, MState.Uninitialized⟩

def c4note : GNote :=
  ⟨chars "n1", some (chars "My Note"), [], false, false, false, .note (chars "Mem text")⟩

def c4snap : Api := ⟨[c4note], [], [(chars "My Note", 1)], [], 0⟩

def c4fs : FS :=
  [(chars "d/My Note.keep", [chars "# My Note", chars "id: n1", [], chars "File text"])]

theorem c4_probe_without_commit_witness :
    c4cfg.state = MState.Uninitialized ∧
    startFS c4cfg c4snap c4fs (some c4snap) = (c4snap, probeTouched c4snap c4cfg c4fs, true) :=
  ⟨rfl, c4_probe_without_commit c4cfg c4snap c4snap c4fs rfl⟩

/-! ## C3: what happens to the old file of a now-virtual note -/

theorem localFile_ne (p : Str) : localFile p ≠ p := by
  intro h
  have hlen := congrArg List.length h
  simp [localFile, chars] at hlen

theorem fsGet_cons (e : Str × List Str) (rest : FS) (q : Str) :
    fsGet (e :: rest) q = if e.1 == q then some e.2 else fsGet rest q := by
  simp only [fsGet, List.find?]
  by_cases h : (e.1 == q) = true <;> simp [h]

theorem fsGet_fsDel_ne (fs : FS) (p q : Str) (h : q ≠ p) :
    fsGet (fsDel fs p) q = fsGet fs q := by
  induction fs with
  | nil => rfl
  | cons e rest ih =>
    simp only [fsDel] at ih
    simp only [fsDel, List.filter_cons]
    by_cases hep : e.1 = p
    · have h1 : (e.1 != p) = false := by simp [hep]
      have h2 : (e.1 == q) = false := by
        simp only [beq_eq_false_iff_ne, ne_eq]
        intro hc
        exact h (by rw [← hc]; exact hep)
      rw [h1]
      simp only [Bool.false_eq_true, if_false]
      rw [ih, fsGet_cons, h2]
      simp
    · have h1 : (e.1 != p) = true := by simpa using hep
      rw [h1]
      simp only [if_true]
      rw [fsGet_cons, fsGet_cons]
      by_cases h2 : (e.1 == q) = true
      · rw [h2]
        simp
      · have h2f : (e.1 == q) = false := by simpa using h2
        rw [h2f]
        simp only [Bool.false_eq_true, if_false]
        exact ih

theorem fsGet_fsDel_self (fs : FS) (p : Str) : fsGet (fsDel fs p) p = none := by
  induction fs with
  | nil => rfl
  | cons e rest ih =>
    simp only [fsDel] at ih
    simp only [fsDel, List.filter_cons]
    by_cases hep : e.1 = p
    · have h1 : (e.1 != p) = false := by simp [hep]
      rw [h1]
      simp only [Bool.false_eq_true, if_false]
      exact ih
    · have h1 : (e.1 != p) = true := by simpa using hep
      rw [h1]
      simp only [if_true]
      rw [fsGet_cons]
      have h2 : (e.1 == p) = false := by simpa using hep
      rw [h2]
      simp only [Bool.false_eq_true, if_false]
      exact ih

/-- C3 (amended): in the Running state `write_files` hands `_write_files`
an empty protected set, so a note whose target address is ephemeral
(trashed, or archived with archival sync off) has its old materialized
file destroyed with `os.unlink` — never renamed to `.local`; the rename
map records old path ↦ ephemeral name.  The `.local` soft-delete of
such files happens only on the `finish_startup` path, where the file
can be in the protected set. -/
theorem c3_virtual_note_file_unlinked (cfg : MConfig) (fs : FS) (nf : MNoteFile)
    (d nid ef : Str) (rest : List (Str × Str))
    (hst : cfg.state = MState.Running) (hsd : cfg.sync_dir = some d)
    (hid : nf.url.id = some nid) (heph : isEphemeral nf.bufname = true)
    (hpop : assocPop (filesById cfg fs) nid = (some ef, rest))
    (hex : fsExists fs ef = true) :
    (writeFiles cfg fs [nf]).fs = fsDel fs ef ∧
    fsGet (writeFiles cfg fs [nf]).fs ef = none ∧
    fsGet (writeFiles cfg fs [nf]).fs (localFile ef) = fsGet fs (localFile ef) ∧
    (writeFiles cfg fs [nf]).renames = [(ef, nf.bufname)] ∧
    (writeFiles cfg fs [nf]).ok = true := by
  have hw : writeFiles cfg fs [nf] =
      ⟨fsDel fs ef, [(ef, nf.bufname)], [], rest, true⟩ := by
    unfold writeFiles writeFilesCore
    rw [hst, hsd]
    simp only [bne_self_eq_false, Bool.false_eq_true, if_false, List.foldl_cons,
      List.foldl_nil]
    unfold wfStep
    rw [hid]
    simp only [Bool.not_true, Bool.false_eq_true, if_false, hpop, heph, if_true, hex]
    simp [assocSet]
  rw [hw]
  exact ⟨rfl, fsGet_fsDel_self fs ef, fsGet_fsDel_ne fs ef (localFile ef) (localFile_ne ef),
    rfl, rfl⟩

def c3cfg : MConfig := ⟨some (chars "d"), false, MState.Running⟩

def c3noteTrash : GNote :=
  ⟨chars "n1", some (chars "My Note"), [], true, false, false, .note (chars "Some text")⟩

def c3noteLive : GNote :=
  ⟨chars "n1", some (chars "My Note"), [], false, false, false, .note (chars "Some text")⟩

def c3api : Api := ⟨[c3noteTrash], [], [(chars "My Note", 1)], [], 0⟩

def c3fs : FS := [(chars "d/My Note.keep", serializeNote c3noteLive)]

def c3nf : MNoteFile := noteFileOf c3api c3cfg c3noteTrash

/-- C3 (claim as stated) is false: a trashed note whose file exists on
disk, written back in the Running state — the file is gone and no
`.local` copy appears. -/
theorem c3_counterexample :
    isEphemeral c3nf.bufname = true ∧
    fsExists c3fs (chars "d/My Note.keep") = true ∧
    (writeFiles c3cfg c3fs [c3nf]).fs = [] ∧
    fsGet (writeFiles c3cfg c3fs [c3nf]).fs (localFile (chars "d/My Note.keep")) = none ∧
    (writeFiles c3cfg c3fs [c3nf]).renames = [(chars "d/My Note.keep", c3nf.bufname)] := by
  decide

theorem c3_virtual_note_file_unlinked_witness :
    (c3cfg.state = MState.Running ∧ c3cfg.sync_dir = some (chars "d") ∧
      c3nf.url.id = some (chars "n1") ∧ isEphemeral c3nf.bufname = true ∧
      assocPop (filesById c3cfg c3fs) (chars "n1") = (some (chars "d/My Note.keep"), []) ∧
      fsExists c3fs (chars "d/My Note.keep") = true) ∧
    ((writeFiles c3cfg c3fs [c3nf]).fs = fsDel c3fs (chars "d/My Note.keep") ∧
      fsGet (writeFiles c3cfg c3fs [c3nf]).fs (chars "d/My Note.keep") = none ∧
      fsGet (writeFiles c3cfg c3fs [c3nf]).fs (localFile (chars "d/My Note.keep")) =
        fsGet c3fs (localFile (chars "d/My Note.keep")) ∧
      (writeFiles c3cfg c3fs [c3nf]).renames = [(chars "d/My Note.keep", c3nf.bufname)] ∧
      (writeFiles c3cfg c3fs [c3nf]).ok = true) :=
  ⟨⟨by decide, by decide, by decide, by decide, by decide, by decide⟩,
    c3_virtual_note_file_unlinked c3cfg c3fs c3nf (chars "d") (chars "n1")
      (chars "d/My Note.keep") [] (by decide) (by decide) (by decide) (by decide)
      (by decide) (by decide)⟩

/-! ## C1: the `finish_startup` conflict policy -/

def c1cfg : MConfig := ⟨some (chars "d"), false, MState.InitialSync⟩

def c1note : GNote :=
  ⟨chars "n1", some (chars "My Note"), [], false, false, false, .note (chars "Mem text")⟩

def c1api : Api := ⟨[c1note], [], [(chars "My Note", 1)], [], 0⟩

def c1fs : FS :=
  [(chars "d/My Note.keep", [chars "# My Note", chars "id: n1", [], chars "File text"])]

def c1prot : List Str := [chars "d/My Note.keep"]

def c1today : Str := chars "2021-04-05"

def c1live : GNote :=
  ⟨chars "n1", some (chars "My Note"), [], false, false, true, .note (chars "File text")⟩

def c1backup : GNote :=
  ⟨chars "0", some (chars "[Backup 2021-04-05] My Note"), [], true, false, true,
    .note (chars "Mem text")⟩

/-- C1 (amended): the conflict/backup outcome happens when the note's
id is NOT in `updatedIds`: with `updatedIds = ∅` the live note takes
the file's text (and is dirty), exactly one new trashed backup note
titled `[Backup <today>] My Note` keeps the old remote text, and the
file on disk is untouched. -/
theorem c1_finish_startup_conflict :
    (finishStartup c1cfg c1api c1fs c1prot [] c1today).1 =
      ⟨[c1live, c1backup], [], [(chars "My Note", 1)], [], 1⟩ ∧
    (finishStartup c1cfg c1api c1fs c1prot [] c1today).2.1 = c1fs ∧
    (finishStartup c1cfg c1api c1fs c1prot [] c1today).2.2.1 = [] ∧
    (finishStartup c1cfg c1api c1fs c1prot [] c1today).2.2.2 = true := by
  refine ⟨by decide, by decide, by decide, by decide⟩

/-- C1 (claim as stated) is false: with the note's id IN `updatedIds`
as the claim demands, the branch at fssync.py:305 wins instead — the
protected file is soft-deleted to `.local` and overwritten with the
note's text; the note graph is untouched, no backup note appears, and
the live text stays "Mem text". -/
theorem c1_counterexample :
    (finishStartup c1cfg c1api c1fs c1prot [chars "n1"] c1today).1 = c1api ∧
    (finishStartup c1cfg c1api c1fs c1prot [chars "n1"] c1today).2.1 =
      [(localFile (chars "d/My Note.keep"),
          [chars "# My Note", chars "id: n1", [], chars "File text"]),
        (chars "d/My Note.keep",
          [chars "# My Note", chars "id: n1", [], chars "Mem text"])] ∧
    (finishStartup c1cfg c1api c1fs c1prot [chars "n1"] c1today).2.2.1 = [] ∧
    (finishStartup c1cfg c1api c1fs c1prot [chars "n1"] c1today).2.2.2 = true := by
  refine ⟨by decide, by decide, by decide, by decide⟩

/-! ## C5: idempotence of write-back -/

theorem fsGet_fsSet_self (fs : FS) (p : Str) (c : List Str) :
    fsGet (fsSet fs p c) p = some c := by
  induction fs with
  | nil => simp [fsSet, fsGet, List.find?]
  | cons e rest ih =>
    by_cases hep : e.1 = p
    · have hq : (e.1 == p) = true := by simpa using hep
      simp [fsSet, hq, fsGet, List.find?]
    · have hq : (e.1 == p) = false := by simpa using hep
      simp only [fsSet, hq, Bool.false_eq_true, if_false]
      rw [fsGet_cons, hq]
      simp only [Bool.false_eq_true, if_false]
      exact ih

theorem filesById_aux (cfg : MConfig) (p : Str) (c : List Str) (fs : FS) :
    ∀ (m : List (Str × Str)),
      fsExists fs p = true →
      (urlOfEntry cfg p c).map MUrl.id =
        ((fsGet fs p).bind (urlOfEntry cfg p)).map MUrl.id →
      ((fsSet fs p c).filterMap
          (fun e => (urlOfEntry cfg e.1 e.2).map (fun u => (e.1, u)))).foldl
        (fun m e => match e.2.id with
          | some i => assocSet m i e.1
          | none => m) m =
      (fs.filterMap (fun e => (urlOfEntry cfg e.1 e.2).map (fun u => (e.1, u)))).foldl
        (fun m e => match e.2.id with
          | some i => assocSet m i e.1
          | none => m) m := by
  induction fs with
  | nil =>
    intro m hex _
    simp [fsExists, fsGet] at hex
  | cons e rest ih =>
    obtain ⟨q, cont⟩ := e
    intro m hex hid
    by_cases hep : q = p
    · subst hep
      have hq : (q == q) = true := by simp
      have hget : fsGet ((q, cont) :: rest) q = some cont := by
        rw [fsGet_cons]
        simp
      rw [hget] at hid
      simp only [Option.some_bind] at hid
      simp only [fsSet, hq, if_true]
      rw [List.filterMap_cons, List.filterMap_cons]
      rcases hu : urlOfEntry cfg q c with _ | u
      · rw [hu] at hid
        rcases h2 : urlOfEntry cfg q cont with _ | v
        · simp
        · rw [h2] at hid
          simp at hid
      · rw [hu] at hid
        rcases h2 : urlOfEntry cfg q cont with _ | v
        · rw [h2] at hid
          simp at hid
        · rw [h2] at hid
          have hids : u.id = v.id := by simpa using hid
          simp only [Option.map_some', List.foldl_cons]
          rw [hids]
    · have hq : (q == p) = false := by simpa using hep
      have hget : fsGet ((q, cont) :: rest) p = fsGet rest p := by
        rw [fsGet_cons]
        simp [hq]
      have hex2 : fsExists rest p = true := by
        simpa [fsExists, hget] using hex
      rw [hget] at hid
      simp only [fsSet, hq, Bool.false_eq_true, if_false]
      rw [List.filterMap_cons, List.filterMap_cons]
      rcases hu : urlOfEntry cfg q cont with _ | u
      · exact ih m hex2 hid
      · simp only [Option.map_some', List.foldl_cons]
        exact ih _ hex2 hid

theorem filesById_fsSet (cfg : MConfig) (fs : FS) (p : Str) (c : List Str)
    (hex : fsExists fs p = true)
    (hid : (urlOfEntry cfg p c).map MUrl.id = (urlFromFile cfg fs p).map MUrl.id) :
    filesById cfg (fsSet fs p c) = filesById cfg fs := by
  unfold filesById findFiles
  rcases hsd : cfg.sync_dir with _ | d
  · rfl
  · exact filesById_aux cfg p c fs [] hex hid

theorem writeFiles_single_existing (cfg : MConfig) (fs : FS) (nf : MNoteFile)
    (d nid ef : Str) (lines : List Str) (rest : List (Str × Str))
    (hst : cfg.state = MState.Running) (hsd : cfg.sync_dir = some d)
    (hid : nf.url.id = some nid) (heph : isEphemeral nf.bufname = false)
    (hlines : nf.lines = some lines)
    (hpop : assocPop (filesById cfg fs) nid = (some ef, rest))
    (hex : fsExists fs ef = true) :
    writeFiles cfg fs [nf] =
      ⟨(if contentChanged fs ef lines then fsSet fs ef lines else fs),
        (if ef != nf.bufname then [(ef, nf.bufname)] else []),
        [], rest, true⟩ := by
  unfold writeFiles writeFilesCore
  rw [hst, hsd]
  simp only [bne_self_eq_false, Bool.false_eq_true, if_false, List.foldl_cons,
    List.foldl_nil]
  unfold wfStep
  rw [hid]
  simp only [Bool.not_true, Bool.false_eq_true, if_false, hpop, heph, hlines]
  by_cases hren : (ef != nf.bufname) = true
  · simp only [hren, if_true]
    unfold wfWrite
    simp only [hex, Bool.not_true, Bool.false_eq_true, if_false]
    have hupd : ([nf].filterMap (fun nf => nf.url.id)).contains nid = true := by
      simp [hid]
    rw [hupd]
    by_cases hch : contentChanged fs ef lines = true
    · simp [hch, hren, writeFileOp, hex, assocSet]
    · have hchf : contentChanged fs ef lines = false := by simpa using hch
      simp [hchf, hren, assocSet]
  · have hrenf : (ef != nf.bufname) = false := by simpa using hren
    have hefb : ef = nf.bufname := by simpa using hrenf
    simp only [hrenf, Bool.false_eq_true, if_false]
    unfold wfWrite
    rw [← hefb]
    simp only [hex, Bool.not_true, Bool.false_eq_true, if_false]
    have hupd : ([nf].filterMap (fun nf => nf.url.id)).contains nid = true := by
      simp [hid]
    rw [hupd]
    by_cases hch : contentChanged fs ef lines = true
    · simp [hch, hrenf, writeFileOp, hex]
    · have hchf : contentChanged fs ef lines = false := by simpa using hch
      simp [hchf, hrenf]

/-- C5 (amended): write-back is idempotent on disk but not on the
rename map: for a snapshot whose note has an existing indexed file,
a second `write_files` call with the same snapshot performs no disk
write (the content hash already matches, so the filesystem is a fixed
point), and returns the SAME rename map as the first call — still
carrying the pending old-path ↦ new-path entry whenever the target
filename differs from the existing file, rather than being empty. -/
theorem c5_write_back_idempotent (cfg : MConfig) (fs : FS) (nf : MNoteFile)
    (d nid ef : Str) (lines : List Str) (rest : List (Str × Str))
    (hst : cfg.state = MState.Running) (hsd : cfg.sync_dir = some d)
    (hid : nf.url.id = some nid) (heph : isEphemeral nf.bufname = false)
    (hlines : nf.lines = some lines)
    (hpop : assocPop (filesById cfg fs) nid = (some ef, rest))
    (hex : fsExists fs ef = true)
    (hurl : (urlOfEntry cfg ef lines).map MUrl.id = (urlFromFile cfg fs ef).map MUrl.id) :
    (writeFiles cfg (writeFiles cfg fs [nf]).fs [nf]).fs = (writeFiles cfg fs [nf]).fs ∧
    (writeFiles cfg (writeFiles cfg fs [nf]).fs [nf]).renames =
      (writeFiles cfg fs [nf]).renames ∧
    (writeFiles cfg fs [nf]).ok = true := by
  have h1 := writeFiles_single_existing cfg fs nf d nid ef lines rest hst hsd hid heph
    hlines hpop hex
  set fs1 := (writeFiles cfg fs [nf]).fs with hfs1
  have hfs1v : fs1 = (if contentChanged fs ef lines then fsSet fs ef lines else fs) := by
    rw [hfs1, h1]
  have hget1 : fsGet fs1 ef = some lines := by
    rw [hfs1v]
    by_cases hch : contentChanged fs ef lines = true
    · rw [if_pos hch]
      exact fsGet_fsSet_self fs ef lines
    · have hchf : contentChanged fs ef lines = false := by simpa using hch
      rw [if_neg (by simp [hchf])]
      simpa [contentChanged] using hchf
  have hex1 : fsExists fs1 ef = true := by simp [fsExists, hget1]
  have hfbi1 : filesById cfg fs1 = filesById cfg fs := by
    rw [hfs1v]
    by_cases hch : contentChanged fs ef lines = true
    · rw [if_pos hch]
      exact filesById_fsSet cfg fs ef lines hex hurl
    · have hchf : contentChanged fs ef lines = false := by simpa using hch
      rw [if_neg (by simp [hchf])]
  have hpop1 : assocPop (filesById cfg fs1) nid = (some ef, rest) := by
    rw [hfbi1]
    exact hpop
  have hch1 : contentChanged fs1 ef lines = false := by
    simp [contentChanged, hget1]
  have h2 := writeFiles_single_existing cfg fs1 nf d nid ef lines rest hst hsd hid heph
    hlines hpop1 hex1
  refine ⟨?_, ?_, ?_⟩
  · rw [h2]
    simp [hch1]
  · rw [h2, h1]
  · rw [h1]

def c5cfg : MConfig := ⟨some (chars "d"), false, MState.Running⟩

def c5noteOld : GNote :=
  ⟨chars "n1", some (chars "My Note"), [], false, false, false, .note (chars "Some text")⟩

def c5note : GNote :=
  ⟨chars "n1", some (chars "New Note"), [], false, false, false, .note (chars "Some text")⟩

def c5api : Api := ⟨[c5note], [], [(chars "New Note", 1)], [], 0⟩

def c5fs : FS := [(chars "d/My Note.keep", serializeNote c5noteOld)]

def c5nf : MNoteFile := noteFileOf c5api c5cfg c5note

/-- C5 (claim as stated) is false: the note's title changed, so a
rename old ↦ new is pending; the second call reports the same
non-empty rename map (the claim expects an empty one), while writing
nothing. -/
theorem c5_counterexample :
    (writeFiles c5cfg (writeFiles c5cfg c5fs [c5nf]).fs [c5nf]).renames =
      [(chars "d/My Note.keep", chars "d/New Note.keep")] ∧
    (writeFiles c5cfg (writeFiles c5cfg c5fs [c5nf]).fs [c5nf]).renames ≠ [] ∧
    (writeFiles c5cfg (writeFiles c5cfg c5fs [c5nf]).fs [c5nf]).fs =
      (writeFiles c5cfg c5fs [c5nf]).fs := by
  refine ⟨by decide, by decide, by decide⟩

theorem c5_write_back_idempotent_witness :
    (c5cfg.state = MState.Running ∧ c5cfg.sync_dir = some (chars "d") ∧
      c5nf.url.id = some (chars "n1") ∧ isEphemeral c5nf.bufname = false ∧
      c5nf.lines = some (serializeNote c5note) ∧
      assocPop (filesById c5cfg c5fs) (chars "n1") =
        (some (chars "d/My Note.keep"), []) ∧
      fsExists c5fs (chars "d/My Note.keep") = true ∧
      (urlOfEntry c5cfg (chars "d/My Note.keep") (serializeNote c5note)).map MUrl.id =
        (urlFromFile c5cfg c5fs (chars "d/My Note.keep")).map MUrl.id) ∧
    ((writeFiles c5cfg (writeFiles c5cfg c5fs [c5nf]).fs [c5nf]).fs =
        (writeFiles c5cfg c5fs [c5nf]).fs ∧
      (writeFiles c5cfg (writeFiles c5cfg c5fs [c5nf]).fs [c5nf]).renames =
        (writeFiles c5cfg c5fs [c5nf]).renames ∧
      (writeFiles c5cfg c5fs [c5nf]).ok = true) :=
  ⟨⟨by decide, by decide, by decide, by decide, by decide, by decide, by decide, by decide⟩,
    c5_write_back_idempotent c5cfg c5fs c5nf (chars "d") (chars "n1")
      (chars "d/My Note.keep") (serializeNote c5note) [] (by decide) (by decide)
      (by decide) (by decide) (by decide) (by decide) (by decide) (by decide)⟩

/-! ## C2: round-trip of the codec -/

def dictKeys (m : ItemDict) : List Str := m.map (fun e => e.1)

/-- First-match queue lookup (keys are unique in every dict the walk
builds, and a missing key reads as the empty queue). -/
def dictQueue (m : ItemDict) (t : Str) : List Nat :=
  ((m.find? (fun e => e.1 == t)).map (fun e => e.2)).getD []

theorem dictQueue_nil (t : Str) : dictQueue [] t = [] := rfl

theorem dictQueue_cons (t2 : Str) (q : List Nat) (rest : ItemDict) (t : Str) :
    dictQueue ((t2, q) :: rest) t = if t2 == t then q else dictQueue rest t := by
  simp only [dictQueue, List.find?]
  by_cases h : (t2 == t) = true <;> simp [h]

theorem dictQueue_dictAdd (m : ItemDict) (t : Str) (i : Nat) (t2 : Str) :
    dictQueue (dictAdd m t i) t2 =
      if t2 == t then dictQueue m t2 ++ [i] else dictQueue m t2 := by
  induction m with
  | nil =>
    by_cases h : t2 = t
    · subst h
      simp [dictAdd, dictQueue_cons, dictQueue_nil]
    · have h1 : (t2 == t) = false := by simpa using h
      have h2 : (t == t2) = false := by simpa using Ne.symm h
      simp [dictAdd, dictQueue_cons, dictQueue_nil, h1, h2]
  | cons e rest ih =>
    obtain ⟨t3, q3⟩ := e
    simp only [dictAdd]
    by_cases h3 : t3 = t
    · subst h3
      simp only [beq_self_eq_true, if_true, dictQueue_cons]
      by_cases h : t2 = t3
      · subst h
        simp
      · have h1 : (t2 == t3) = false := by simpa using h
        have h2 : (t3 == t2) = false := by simpa using Ne.symm h
        simp [dictQueue_cons, h1, h2]
    · have h3f : (t3 == t) = false := by simpa using h3
      simp only [h3f, Bool.false_eq_true, if_false, dictQueue_cons]
      by_cases h : t3 = t2
      · subst h
        simp only [beq_self_eq_true, if_true]
        have h1 : (t3 == t) = false := by simpa using h3
        rw [h1]
        simp
      · have hne : (t3 == t2) = false := by simpa using h
        simp only [hne, Bool.false_eq_true, if_false]
        exact ih

theorem dictQueue_buildDict_aux (its : List LItem) (m0 : ItemDict) (t : Str) :
    dictQueue (its.foldl (fun m it => dictAdd m it.text it.id) m0) t =
      dictQueue m0 t ++ (its.filter (fun x => x.text == t)).map LItem.id := by
  induction its generalizing m0 with
  | nil => simp
  | cons v rest ih =>
    simp only [List.foldl_cons, List.filter_cons]
    rw [ih, dictQueue_dictAdd]
    by_cases h : v.text = t
    · have h1 : (t == v.text) = true := by simpa using h.symm
      have h2 : (v.text == t) = true := by simpa using h
      rw [h1, h2]
      simp [List.append_assoc]
    · have h1 : (t == v.text) = false := by simpa using Ne.symm h
      have h2 : (v.text == t) = false := by simpa using h
      rw [h1, h2]
      simp

theorem dictQueue_buildDict (its : List LItem) (t : Str) :
    dictQueue (buildDict its) t = (its.filter (fun x => x.text == t)).map LItem.id := by
  unfold buildDict
  rw [dictQueue_buildDict_aux]
  simp [dictQueue_nil]

theorem dictKeys_dictAdd (m : ItemDict) (t : Str) (i : Nat) :
    dictKeys (dictAdd m t i) =
      if t ∈ dictKeys m then dictKeys m else dictKeys m ++ [t] := by
  induction m with
  | nil => simp [dictAdd, dictKeys]
  | cons e rest ih =>
    obtain ⟨t3, q3⟩ := e
    simp only [dictAdd, dictKeys, List.map_cons, List.mem_cons]
    by_cases h3 : t3 = t
    · subst h3
      simp
    · have h3f : (t3 == t) = false := by simpa using h3
      rw [h3f]
      simp only [Bool.false_eq_true, if_false, List.map_cons]
      simp only [dictKeys] at ih
      rw [ih]
      by_cases hm : t ∈ rest.map (fun e => e.1)
      · simp [hm, Ne.symm h3]
      · simp [hm, Ne.symm h3]

theorem dictKeys_buildDict_nodup (its : List LItem) : (dictKeys (buildDict its)).Nodup := by
  suffices h : ∀ m0 : ItemDict, (dictKeys m0).Nodup →
      (dictKeys (its.foldl (fun m it => dictAdd m it.text it.id) m0)).Nodup by
    exact h [] (by simp [dictKeys])
  induction its with
  | nil => intro m0 h0; simpa using h0
  | cons v rest ih =>
    intro m0 h0
    simp only [List.foldl_cons]
    refine ih (dictAdd m0 v.text v.id) ?_
    rw [dictKeys_dictAdd]
    by_cases hm : v.text ∈ dictKeys m0
    · simp [hm, h0]
    · simp only [hm, if_false]
      rw [← List.concat_eq_append]
      exact h0.concat hm

theorem dictQueue_not_mem (m : ItemDict) (t : Str) (h : t ∉ dictKeys m) :
    dictQueue m t = [] := by
  induction m with
  | nil => rfl
  | cons e rest ih =>
    obtain ⟨t3, q3⟩ := e
    simp only [dictKeys, List.map_cons, List.mem_cons] at h
    push_neg at h
    rw [dictQueue_cons]
    have h1 : (t3 == t) = false := by simpa using Ne.symm h.1
    rw [h1]
    simp only [Bool.false_eq_true, if_false]
    exact ih (by simpa [dictKeys] using h.2)

theorem dictPop_keys_sublist (m : ItemDict) (t : Str) :
    (dictKeys (dictPop m t).2).Sublist (dictKeys m) := by
  induction m with
  | nil => exact List.Sublist.refl _
  | cons e rest ih =>
    obtain ⟨t3, q3⟩ := e
    by_cases h3 : (t3 == t) = true
    · simp only [dictPop, h3, if_true]
      rcases q3 with _ | ⟨i, q2⟩
      · exact List.sublist_cons_of_sublist _ (List.Sublist.refl _)
      · by_cases hqe : q2.isEmpty = true
        · simp only [hqe, if_true]
          exact List.sublist_cons_of_sublist _ (List.Sublist.refl _)
        · have hqf : q2.isEmpty = false := by simpa using hqe
          simp only [hqf, Bool.false_eq_true, if_false]
          exact List.Sublist.refl _
    · have h3f : (t3 == t) = false := by simpa using h3
      simp only [dictPop, h3f, Bool.false_eq_true, if_false]
      rcases hdp : dictPop rest t with ⟨r, rest2⟩
      rw [hdp] at ih
      simpa [dictKeys] using ih.cons₂ t3

theorem dictPop_spec (m : ItemDict) (t : Str) (i : Nat) (q : List Nat)
    (hk : (dictKeys m).Nodup) (hq : dictQueue m t = i :: q) :
    (dictPop m t).1 = some i ∧
    (dictKeys (dictPop m t).2).Nodup ∧
    (∀ t2, dictQueue (dictPop m t).2 t2 = if t2 == t then q else dictQueue m t2) := by
  induction m with
  | nil => simp [dictQueue_nil] at hq
  | cons e rest ih =>
    obtain ⟨t3, q3⟩ := e
    have hk2 : (dictKeys rest).Nodup ∧ t3 ∉ dictKeys rest := by
      simp only [dictKeys, List.map_cons, List.nodup_cons] at hk
      exact ⟨hk.2, by simpa [dictKeys] using hk.1⟩
    by_cases h3 : t3 = t
    · subst h3
      rw [dictQueue_cons] at hq
      simp only [beq_self_eq_true, if_true] at hq
      subst hq
      unfold dictPop
      simp only [beq_self_eq_true, if_true]
      refine ⟨by trivial, ?_, ?_⟩
      · by_cases hqe : q.isEmpty = true
        · simp only [hqe, if_true]
          exact hk2.1
        · have hqf : q.isEmpty = false := by simpa using hqe
          simp only [hqf, Bool.false_eq_true, if_false]
          simpa [dictKeys] using hk
      · intro t2
        by_cases hqe : q.isEmpty = true
        · have hqnil : q = [] := by simpa using hqe
          subst hqnil
          simp only [hqe, if_true]
          by_cases h2 : t2 = t3
          · subst h2
            simp only [beq_self_eq_true, if_true]
            exact dictQueue_not_mem rest t2 hk2.2
          · have hb : (t2 == t3) = false := by simpa using h2
            have hb2 : (t3 == t2) = false := by simpa using Ne.symm h2
            rw [hb, dictQueue_cons, hb2]
            simp
        · have hqf : q.isEmpty = false := by simpa using hqe
          simp only [hqf, Bool.false_eq_true, if_false]
          rw [dictQueue_cons, dictQueue_cons]
          by_cases h2 : t3 = t2
          · subst h2
            simp
          · have hb : (t3 == t2) = false := by simpa using h2
            have hb2 : (t2 == t3) = false := by simpa using Ne.symm h2
            rw [hb, hb2]
            simp
    · have h3f : (t3 == t) = false := by simpa using h3
      rw [dictQueue_cons, h3f] at hq
      simp only [Bool.false_eq_true, if_false] at hq
      have ihh := ih hk2.1 hq
      unfold dictPop
      rw [h3f]
      simp only [Bool.false_eq_true, if_false]
      rcases hdp : dictPop rest t with ⟨r, rest2⟩
      rw [hdp] at ihh
      have hsub := dictPop_keys_sublist rest t
      rw [hdp] at hsub
      refine ⟨ihh.1, ?_, ?_⟩
      · simp only [dictKeys, List.map_cons, List.nodup_cons]
        refine ⟨?_, by simpa [dictKeys] using ihh.2.1⟩
        intro hc
        exact hk2.2 (hsub.mem (by simpa [dictKeys] using hc))
      · intro t2
        rw [dictQueue_cons, dictQueue_cons]
        by_cases h2 : t3 = t2
        · subst h2
          simp only [beq_self_eq_true, if_true]
          rw [h3f]
          simp
        · have hb : (t3 == t2) = false := by simpa using h2
          rw [hb]
          simp only [Bool.false_eq_true, if_false]
          exact ihh.2.2 t2

theorem matchLI_x (t : Str) :
    matchListItem (chars "[x] " ++ t) = some ⟨false, true, pyLStrip t⟩ := rfl

theorem matchLI_sp (t : Str) :
    matchListItem (chars "[ ] " ++ t) = some ⟨false, false, pyLStrip t⟩ := rfl

theorem matchLI_dash (t : Str) :
    matchListItem (chars "[-] " ++ t) = some ⟨false, false, pyLStrip t⟩ := rfl

theorem matchLI_ind_x (t : Str) :
    matchListItem (chars "    [x] " ++ t) = some ⟨true, true, pyLStrip t⟩ := rfl

theorem matchLI_ind_sp (t : Str) :
    matchListItem (chars "    [ ] " ++ t) = some ⟨true, false, pyLStrip t⟩ := rfl

/-- Re-parsing a generated checklist line recovers the item's
indentation, checked state and (left-clean) text; the `[-]` partial
marker reads back as unchecked, which is the item's state. -/
theorem classify_itemLine (st : LState) (v : LItem) (hl : pyLStrip v.text = v.text) :
    classifyLine (itemLine st v) = some ⟨v.indented, v.checked, v.text⟩ := by
  have hmk : markOf st v = some v.checked ∨ (markOf st v = none ∧ v.checked = false) := by
    unfold markOf
    by_cases hi : v.indented = true
    · simp [hi]
    · by_cases hc : v.checked = true
      · simp [hi, hc]
      · have hcf : v.checked = false := by simpa using hc
        by_cases ha : (childrenOf st v.id).any (fun c => c.checked) = true
        · simp [hi, hcf, ha]
        · have haf : (childrenOf st v.id).any (fun c => c.checked) = false := by
            simpa using ha
          simp [hi, hcf, haf]
  by_cases hi : v.indented = true
  · -- indented: mark is `some v.checked` (markOf starts with the indented case)
    have hmk2 : markOf st v = some v.checked := by
      rcases hmk with h | ⟨h, _⟩
      · exact h
      · exact absurd h (by simp [markOf, hi])
    by_cases hc : v.checked = true
    · have hline : itemLine st v = chars "    [x] " ++ v.text := by
        simp [itemLine, hi, hmk2, hc, checkbox, chars]
      rw [hline]
      unfold classifyLine
      rw [matchLI_ind_x, hl, hi, hc]
    · have hcf : v.checked = false := by simpa using hc
      have hline : itemLine st v = chars "    [ ] " ++ v.text := by
        simp [itemLine, hi, hmk2, hcf, checkbox, chars]
      rw [hline]
      unfold classifyLine
      rw [matchLI_ind_sp, hl, hi, hcf]
  · have hif : v.indented = false := by simpa using hi
    by_cases hc : v.checked = true
    · have hmk2 : markOf st v = some true := by
        rcases hmk with h | ⟨_, h⟩
        · rw [h, hc]
        · exact absurd hc (by simp [h])
      have hline : itemLine st v = chars "[x] " ++ v.text := by
        simp [itemLine, hif, hmk2, checkbox, chars]
      rw [hline]
      unfold classifyLine
      rw [matchLI_x, hl, hif, hc]
    · have hcf : v.checked = false := by simpa using hc
      rcases hmk with h | ⟨h, _⟩
      · have hline : itemLine st v = chars "[ ] " ++ v.text := by
          simp [itemLine, hif, h, hcf, checkbox, chars]
        rw [hline]
        unfold classifyLine
        rw [matchLI_sp, hl, hif, hcf]
      · have hline : itemLine st v = chars "[-] " ++ v.text := by
          simp [itemLine, hif, h, checkbox, chars]
        rw [hline]
        unfold classifyLine
        rw [matchLI_dash, hl, hif, hcf]

theorem stageMutate_noop (st0 : LState) (v : LItem) (ind ck : Bool) (pv : Option Nat)
    (d : Bool) (hind : ind = v.indented) (hck : ck = v.checked)
    (hp : ind = true → pv = v.parentId) :
    stageMutate st0 v ⟨v.indented, v.checked, v.text⟩ ind ck pv d = (st0, d) := by
  subst hind hck
  unfold stageMutate
  dsimp only
  simp only [bne_self_eq_false, Bool.false_eq_true, if_false]
  by_cases hvi : v.indented = true
  · rw [if_pos hvi]
    rw [hp hvi]
    rcases hpv : v.parentId with _ | pid
    · have h2 : v.indented = false := by simp [LItem.indented, hpv]
      rw [h2] at hvi
    · simp
  · have hvif : v.indented = false := by simpa using hvi
    rw [hvif]
    simp

theorem walkStep_noop (st : LState) (v : LItem) (w : WalkSt)
    (hnd : (st.items.map LItem.id).Nodup) (hv : v ∈ st.items)
    (hwst : w.st = st) (hdirty : w.dirty = false) (hres : w.resort = false)
    (hpop1 : (dictPop w.dict v.text).1 = some v.id)
    (hpar : v.indented = true →
      ∃ p, w.parent = some p.id ∧ v.parentId = some p.id ∧ p ∈ st.items ∧
        (p.checked = true → v.checked = true))
    (hsort : ∀ ls, w.lastSort = some ls → v.sort < ls) :
    walkStep w ⟨v.indented, v.checked, v.text⟩ =
      ⟨st, (dictPop w.dict v.text).2,
        (if v.indented then w.parent else some v.id),
        w.newItems ++ [v.id], some v.sort, false, false⟩ := by
  have hfind : findItem w.st v.id = some v := by
    rw [hwst]
    exact findItem_eq st hnd hv
  have hsp : stagePop w ⟨v.indented, v.checked, v.text⟩ =
      (w.st, v, w.dirty, (dictPop w.dict v.text).2) := by
    simp [stagePop, hpop1, hfind]
  have hresort : (w.resort || (match w.lastSort with
      | some ls => decide (ls ≤ v.sort)
      | none => false)) = false := by
    rw [hres]
    rcases hls : w.lastSort with _ | ls
    · rfl
    · have hlt := hsort ls hls
      simp only [Bool.false_or]
      simpa using (by omega : ¬(ls ≤ v.sort))
  by_cases hvi : v.indented = true
  · obtain ⟨p, hwp, hvp, hpmem, himp⟩ := hpar hvi
    have hindeq : ((⟨v.indented, v.checked, v.text⟩ : LineItem).indented && w.parent.isSome)
        = v.indented := by
      dsimp only
      rw [hvi, hwp]
      rfl
    have hfp : findItem w.st p.id = some p := by
      rw [hwst]
      exact findItem_eq st hnd hpmem
    have hckeq : (if ((⟨v.indented, v.checked, v.text⟩ : LineItem).indented &&
          w.parent.isSome) = true then
        (⟨v.indented, v.checked, v.text⟩ : LineItem).checked ||
          (match w.parent with
            | some pid => ((findItem w.st pid).map (fun p => p.checked)).getD false
            | none => false)
      else (⟨v.indented, v.checked, v.text⟩ : LineItem).checked) = v.checked := by
      rw [hindeq, hvi]
      dsimp only
      rw [if_pos rfl, hwp]
      simp only [hfp]
      simpa using himp
    unfold walkStep
    rw [hsp]
    dsimp only
    rw [stageMutate_noop w.st v _ _ w.parent w.dirty hindeq hckeq
      (fun _ => by rw [hwp, hvp])]
    rw [hindeq, hresort, hwst, hdirty]
  · have hvif : v.indented = false := by simpa using hvi
    have hindeq : ((⟨v.indented, v.checked, v.text⟩ : LineItem).indented && w.parent.isSome)
        = v.indented := by
      dsimp only
      rw [hvif]
      rfl
    have hckeq : (if ((⟨v.indented, v.checked, v.text⟩ : LineItem).indented &&
          w.parent.isSome) = true then
        (⟨v.indented, v.checked, v.text⟩ : LineItem).checked ||
          (match w.parent with
            | some pid => ((findItem w.st pid).map (fun p => p.checked)).getD false
            | none => false)
      else (⟨v.indented, v.checked, v.text⟩ : LineItem).checked) = v.checked := by
      rw [hindeq, hvif]
      simp
    unfold walkStep
    rw [hsp]
    dsimp only
    rw [stageMutate_noop w.st v _ _ w.parent w.dirty hindeq hckeq
      (fun h => absurd (hindeq ▸ h) (by rw [hvif]; simp))]
    rw [hindeq, hresort, hwst, hdirty]

/-- Shape of a serialized checklist view that reconciles to itself:
every item is in the arena with left-clean text, the emitted sorts
strictly decrease, each indented item hangs under the current block
parent, and no unchecked item sits under a checked parent (the C9
coercion would flip it). -/
def viewShape (st : LState) : Option LItem → Option Int → List LItem → Bool
  | _, _, [] => true
  | pOpt, sOpt, v :: rest =>
    st.items.contains v &&
    (pyLStrip v.text == v.text) &&
    (match sOpt with
      | some s => decide (v.sort < s)
      | none => true) &&
    (if v.indented then
      match pOpt with
      | some p => (v.parentId == some p.id) && (!p.checked || v.checked) &&
          viewShape st pOpt (some v.sort) rest
      | none => false
    else viewShape st (some v) (some v.sort) rest)

theorem dictIds_eq_nil (m : ItemDict) (hk : (dictKeys m).Nodup)
    (h : ∀ t, dictQueue m t = []) : dictIds m = [] := by
  induction m with
  | nil => rfl
  | cons e rest ih =>
    obtain ⟨t3, q3⟩ := e
    have h3 := h t3
    rw [dictQueue_cons] at h3
    simp only [beq_self_eq_true, if_true] at h3
    subst h3
    rw [dictIds_cons]
    simp only [List.nil_append]
    simp only [dictKeys, List.map_cons, List.nodup_cons] at hk
    refine ih (by simpa [dictKeys] using hk.2) ?_
    intro t
    by_cases ht : t = t3
    · subst ht
      exact dictQueue_not_mem rest t (by simpa [dictKeys] using hk.1)
    · have h4 := h t
      rw [dictQueue_cons] at h4
      have hb : (t3 == t) = false := by simpa using Ne.symm ht
      rw [hb] at h4
      simpa using h4

theorem walkRT (st : LState) (hnd : (st.items.map LItem.id).Nodup) :
    ∀ (remaining : List LItem) (pOpt : Option LItem) (w : WalkSt),
      viewShape st pOpt w.lastSort remaining = true →
      w.st = st → w.dirty = false → w.resort = false →
      w.parent = pOpt.map LItem.id →
      (∀ p, pOpt = some p → p ∈ st.items) →
      (dictKeys w.dict).Nodup →
      (∀ t, dictQueue w.dict t =
        ((remaining.filter (fun x => x.text == t)).map LItem.id)) →
      ((remaining.map (itemLine st)).foldl
          (fun w line => match classifyLine line with
            | some li => walkStep w li
            | none => w) w).st = st ∧
      ((remaining.map (itemLine st)).foldl
          (fun w line => match classifyLine line with
            | some li => walkStep w li
            | none => w) w).dirty = false ∧
      ((remaining.map (itemLine st)).foldl
          (fun w line => match classifyLine line with
            | some li => walkStep w li
            | none => w) w).resort = false ∧
      (dictKeys ((remaining.map (itemLine st)).foldl
          (fun w line => match classifyLine line with
            | some li => walkStep w li
            | none => w) w).dict).Nodup ∧
      (∀ t, dictQueue ((remaining.map (itemLine st)).foldl
          (fun w line => match classifyLine line with
            | some li => walkStep w li
            | none => w) w).dict t = []) := by
  intro remaining
  induction remaining with
  | nil =>
    intro pOpt w hshape hwst hdirty hres hpar hpmem hknd hq
    simp only [List.map_nil, List.foldl_nil]
    exact ⟨hwst, hdirty, hres, hknd, fun t => by simpa using hq t⟩
  | cons v rest ih =>
    intro pOpt w hshape hwst hdirty hres hpar hpmem hknd hq
    simp only [viewShape, Bool.and_eq_true] at hshape
    obtain ⟨⟨⟨hvmem1, hvclean1⟩, hsort1⟩, htail⟩ := hshape
    have hvmem : v ∈ st.items := by simpa using hvmem1
    have hvclean : pyLStrip v.text = v.text := by simpa using hvclean1
    have hqv : dictQueue w.dict v.text =
        v.id :: (rest.filter (fun x => x.text == v.text)).map LItem.id := by
      have h0 := hq v.text
      rw [List.filter_cons] at h0
      simpa using h0
    obtain ⟨hp1, hknd2, hq2⟩ :=
      dictPop_spec w.dict v.text v.id _ hknd hqv
    have hcl := classify_itemLine st v hvclean
    have hparstep : v.indented = true →
        ∃ p, w.parent = some p.id ∧ v.parentId = some p.id ∧ p ∈ st.items ∧
          (p.checked = true → v.checked = true) := by
      intro hvi
      rw [if_pos hvi] at htail
      rcases hpo : pOpt with _ | p
      · rw [hpo] at htail
        simp at htail
      · rw [hpo] at htail
        simp only [Bool.and_eq_true] at htail
        obtain ⟨⟨hvp1, hco1⟩, _⟩ := htail
        refine ⟨p, ?_, by simpa using hvp1, hpmem p hpo, ?_⟩
      
        · rw [hpar, hpo]
          rfl
        · intro hpc
          rcases hvc : v.checked with _ | _
          · rw [hpc, hvc] at hco1
            simp at hco1
          · rfl
    have hsortstep : ∀ ls, w.lastSort = some ls → v.sort < ls := by
      intro ls hls
      rw [hls] at hsort1
      simpa using hsort1
    simp only [List.map_cons, List.foldl_cons, hcl]
    rw [walkStep_noop st v w hnd hvmem hwst hdirty hres hp1 hparstep hsortstep]
    refine ih (if v.indented then pOpt else some v)
      ⟨st, (dictPop w.dict v.text).2,
        (if v.indented then w.parent else some v.id),
        w.newItems ++ [v.id], some v.sort, false, false⟩
      ?_ rfl rfl rfl ?_ ?_ hknd2 ?_
    · -- tail shape
      dsimp only
      by_cases hvi : v.indented = true
      · rw [if_pos hvi] at htail ⊢
        rcases hpo : pOpt with _ | p
        · rw [hpo] at htail
          simp at htail
        · rw [hpo] at htail
          simp only [Bool.and_eq_true] at htail
          exact htail.2
      · rw [if_neg hvi] at htail ⊢
        exact htail
    · dsimp only
      by_cases hvi : v.indented = true
      · rw [if_pos hvi, if_pos hvi]
        exact hpar
      · rw [if_neg hvi, if_neg hvi]
        simp
    · intro p hp
      by_cases hvi : v.indented = true
      · rw [if_pos hvi] at hp
        exact hpmem p hp
      · rw [if_neg hvi] at hp
        simp only [Option.some_inj] at hp
        rw [← hp]
        exact hvmem
    · intro t
      dsimp only
      rw [hq2 t]
      by_cases ht : t = v.text
      · subst ht
        simp
      · have hb : (t == v.text) = false := by simpa using ht
        rw [hb]
        simp only [Bool.false_eq_true, if_false]
        have h0 := hq t
        rw [List.filter_cons] at h0
        have hb2 : (v.text == t) = false := by simpa using Ne.symm ht
        rw [hb2] at h0
        simpa using h0

theorem parseListBody_roundtrip (st : LState) (lines0 : List Str)
    (hnd : (st.items.map LItem.id).Nodup)
    (hshape : viewShape st none none (itemsView st) = true) :
    parseListBody (lines0 ++ (itemsView st).map (itemLine st)) st lines0.length =
      (st, false) := by
  obtain ⟨h1, h2, h3, h4, h5⟩ :=
    walkRT st hnd (itemsView st) none
      ⟨st, buildDict (itemsView st), none, [], none, false, false⟩
      hshape rfl rfl rfl rfl (fun p hp => by cases hp)
      (dictKeys_buildDict_nodup _)
      (fun t => by rw [dictQueue_buildDict])
  have hids := dictIds_eq_nil _ h4 h5
  unfold parseListBody
  rw [List.drop_left]
  dsimp only
  rw [h3, hids]
  simp only [Bool.false_eq_true, if_false, List.isEmpty_nil, Bool.not_true, Bool.or_false]
  rw [h1, h2]
  rfl

theorem pyStrip_cons_space (t : Str) : pyStrip (' ' :: t) = pyStrip t := by
  unfold pyStrip pyLStrip
  rw [List.dropWhile_cons, if_pos (by decide)]

theorem parseMeta_gen (a b : Str) (tail : List Str) :
    parseMeta ((chars "# " ++ a) :: (chars "id: " ++ b) :: tail) =
      (⟨some (pyStrip b), some (pyStrip a)⟩, 2) := by
  have h : parseMeta ((chars "# " ++ a) :: (chars "id: " ++ b) :: tail) =
      (⟨some (pyStrip (' ' :: b)), some (pyStrip (' ' :: a))⟩, 2) := rfl
  rw [h, pyStrip_cons_space, pyStrip_cons_space]

theorem parseHeader_gen (labels : List Label) (a b : Str) (tail : List Str) :
    parseHeader labels ((chars "# " ++ a) :: (chars "id: " ++ b) :: [] :: tail) =
      (⟨some (pyStrip b), some (pyStrip a)⟩, [], 3) := by
  unfold parseHeader
  rw [parseMeta_gen]
  rfl

theorem mergeLabels_nil (n : GNote) (hlab : n.labels = []) : mergeLabels n [] = n := by
  unfold mergeLabels
  simp [hlab]

theorem syncHeader_self (n : GNote) (t : Str) (ht : n.title = some t)
    (hlab : n.labels = []) :
    syncHeader n ⟨some n.id, some t⟩ [] = n := by
  unfold syncHeader
  rw [ht]
  simp only [bne_self_eq_false, Bool.false_eq_true, if_false]
  exact mergeLabels_nil n hlab

/-- C2 (amended): the codec round-trips — `parse(serialize(n))` leaves
`n` unchanged, so serializing again reproduces the original lines —
for every label-free note whose title and id are whitespace-trimmed,
provided (for checklists) the serialized view is well-shaped: items
have left-clean texts, strictly decreasing sorts, children sit under
their block parent, and — the part the claim gets wrong — no unchecked
item sits under a checked parent.  The claim's own singled-out instance
(checked parent, unchecked indented child) violates the last condition
and does not round-trip. -/
theorem c2_codec_roundtrip (n : GNote) (t : Str)
    (ht : n.title = some t) (hts : pyStrip t = t)
    (hid : pyStrip n.id = n.id) (hlab : n.labels = [])
    (hbody : match n.body with
      | .note _ => True
      | .list st => ((st.items.map LItem.id).Nodup ∧
          viewShape st none none (itemsView st) = true)) :
    parseNote [] (serializeNote n) n = n ∧
    serializeNote (parseNote [] (serializeNote n) n) = serializeNote n := by
  have hser : serializeNote n = (chars "# " ++ t) :: (chars "id: " ++ n.id) :: [] ::
      (match n.body with
        | .note text => splitLines text
        | .list st => genListBody st) := by
    unfold serializeNote genHeader
    rw [ht, hlab]
    simp [reprOpt, hts]
  have hmain : parseNote [] (serializeNote n) n = n := by
    unfold parseNote
    rw [hser, parseHeader_gen, hts, hid]
    dsimp only
    rw [syncHeader_self n t ht hlab]
    rcases hb : n.body with text | st
    · dsimp only
      unfold parseNoteBody
      rw [show ((chars "# " ++ t) :: (chars "id: " ++ n.id) :: [] ::
          splitLines text).drop 3 = splitLines text from rfl]
      rw [joinLines_splitLines]
      simp
    · have hbl : (st.items.map LItem.id).Nodup ∧
          viewShape st none none (itemsView st) = true := by
        rw [hb] at hbody
        exact hbody
      dsimp only
      have hplb2 : parseListBody ((chars "# " ++ t) :: (chars "id: " ++ n.id) :: [] ::
          genListBody st) st 3 = (st, false) :=
        parseListBody_roundtrip st [chars "# " ++ t, chars "id: " ++ n.id, []]
          hbl.1 hbl.2
      rw [hplb2]
      rw [Bool.or_false, ← hb]
  exact ⟨hmain, by rw [hmain]⟩

/-- A checklist with a partial-marker parent, a checked child and a
second top-level item round-trips exactly. -/
def c2note : GNote := ⟨chars "n3", some (chars "T"), [], false, false, false,
  .list ⟨[⟨1, chars "P", false, none, 30, false⟩, ⟨2, chars "C", true, some 1, 20, false⟩,
    ⟨3, chars "D", false, none, 10, false⟩], 4⟩⟩

theorem c2_codec_roundtrip_witness :
    (c2note.title = some (chars "T") ∧ pyStrip (chars "T") = chars "T" ∧
      pyStrip c2note.id = c2note.id ∧ c2note.labels = []) ∧
    (parseNote [] (serializeNote c2note) c2note = c2note ∧
      serializeNote (parseNote [] (serializeNote c2note) c2note) = serializeNote c2note) :=
  ⟨⟨by decide, by decide, by decide, by decide⟩,
    c2_codec_roundtrip c2note (chars "T") (by decide) (by decide) (by decide) (by decide)
      ⟨by decide, by decide⟩⟩

end GKeep
